import Mathlib

/-!
# handleMPD: the manifest relay handler `handelMain` (src/main.go)

A shallow embedding of the single request handler of the repository and of
the parts of the Go standard library it calls (`strings`, `regexp`,
`net/http` header maps).

Conventions of the embedding.

* A Go `string` is a list of runes (`Str`).  The texts the handler works on
  are taken to be valid UTF-8; all delimiters the handler searches for are
  ASCII, so rune offsets and byte offsets cut a text at the same places.
* A Go `int` index is an `Int` where `-1` is a possible result
  (`strings.Index`), and a `Nat` inside the regular expression engine.
* A run-time panic (slice out of range, nil dereference) is the result
  `none` of a function into `Option`.
* The Unicode tables of the Go runtime are a parameter (`Unicode`): the
  ASCII behaviour of every library function is spelled out, the tables are
  consulted above ASCII only.
-/

namespace HandleMPD

/-- A Go string, as its sequence of runes. -/
abbrev Str := List Char

/-! ## Unicode tables -/

/-- The tables of Go's `unicode` package, consulted for runes above ASCII. -/
structure Unicode where
  /-- The letter table `unicode.IsLetter`, for runes from U+0080. -/
  isLetter : Char → Bool
  /-- The digit table `unicode.IsDigit`, for runes above Latin-1. -/
  isDigit : Char → Bool
  /-- The mapping `unicode.ToLower`, for runes from U+0080. -/
  toLower : Char → Char
  /-- Whether the larger rune is reached from the smaller one by iterating
  `unicode.SimpleFold`; the general case of `strings.EqualFold`. -/
  foldsTo : Char → Char → Bool

/-- Tables under which no rune above ASCII is a letter, a digit or cased.
They stand in for the runtime's tables when a function is evaluated on
ASCII text, where the tables are not consulted. -/
def Unicode.caseless : Unicode :=
  ⟨fun _ => false, fun _ => false, fun c => c, fun _ _ => false⟩

/-- The rune test `unicode.IsLetter`: ASCII letters directly, the table above. -/
def Unicode.IsLetter (U : Unicode) (c : Char) : Bool :=
  if c.val < 128 then c.isAlpha else U.isLetter c

/-- The rune test `unicode.IsDigit`: up to Latin-1 only '0'..'9'. -/
def Unicode.IsDigit (U : Unicode) (c : Char) : Bool :=
  if c.val ≤ 255 then c.isDigit else U.isDigit c

/-- The rune mapping `unicode.ToLower`. -/
def Unicode.ToLower (U : Unicode) (c : Char) : Char :=
  if c.val < 128 then c.toLower else U.toLower c

/-! ## Package `strings` -/

/-- Go `strings.HasPrefix`. -/
def HasPrefix (s pre : Str) : Bool := pre.isPrefixOf s

/-- Scan of `strings.Index` from offset `pos`. -/
def indexFrom (substr : Str) : Nat → Str → Int
  | pos, [] => if substr = [] then (pos : Int) else -1
  | pos, c :: cs =>
    if substr.isPrefixOf (c :: cs) then (pos : Int) else indexFrom substr (pos + 1) cs

/-- Go `strings.Index`: offset of the first instance of `substr`, or `-1`. -/
def Index (s substr : Str) : Int := indexFrom substr 0 s

/-- Go `strings.LastIndex`: offset of the last instance of `substr`, or `-1`. -/
def LastIndex : Str → Str → Int
  | [], substr => if substr = [] then 0 else -1
  | c :: cs, substr =>
    let r := LastIndex cs substr
    if 0 ≤ r then r + 1
    else if substr.isPrefixOf (c :: cs) then 0 else -1

/-- Go `strings.Join`. -/
def Join : List Str → Str → Str
  | [], _ => []
  | [a], _ => a
  | a :: b :: rest, sep => a ++ sep ++ Join (b :: rest) sep

/-- Go `strings.ToLower`. -/
def ToLower (U : Unicode) (s : Str) : Str := s.map U.ToLower

/-- One step of `strings.EqualFold`: whether two runes are equal under
simple case folding. -/
def foldEqRune (U : Unicode) (a b : Char) : Bool :=
  if a = b then true
  else
    let sr := if b < a then b else a
    let tr := if b < a then a else b
    if tr.val < 128 then
      decide ('A' ≤ sr) && decide (sr ≤ 'Z') && decide (tr.val = sr.val + 32)
    else U.foldsTo sr tr

/-- Go `strings.EqualFold`. -/
def EqualFold (U : Unicode) : Str → Str → Bool
  | [], [] => true
  | a :: s, b :: t => foldEqRune U a b && EqualFold U s t
  | _, _ => false

/-- The slice expression `s[lo:hi]` of Go: it panics unless
`0 ≤ lo ≤ hi ≤ len(s)`. -/
def goSlice (s : Str) (lo hi : Int) : Option Str :=
  if 0 ≤ lo ∧ lo ≤ hi ∧ hi ≤ (s.length : Int) then
    some ((s.drop lo.toNat).take (hi.toNat - lo.toNat))
  else none

/-- The slice `s[a:b]` for offsets known to be in range (inside `regexp`). -/
def slice (s : Str) (a b : Nat) : Str := (s.drop a).take (b - a)

/-! ## Package `regexp`

The fragment of RE2 syntax the two patterns of the handler use:
concatenations of single runes, starred single-rune classes, capture
boundaries and the text anchors.  Matching is leftmost-first, the match a
backtracking search finds first. -/

/-- A class of single runes. -/
inductive CharClass where
  /-- A literal rune. -/
  | lit (c : Char)
  /-- The pattern `.` without the `s` flag: any rune but a line feed. -/
  | dot
  /-- The pattern `[^c]`: any rune but `c` (a line feed included). -/
  | notCh (c : Char)
  deriving DecidableEq, Repr

/-- Whether a rune is in the class. -/
def CharClass.test : CharClass → Char → Bool
  | .lit c, x => x == c
  | .dot, x => x != '\n'
  | .notCh c, x => x != c

/-- One item of a compiled pattern. -/
inductive Op where
  /-- One rune of a class. -/
  | rune (cls : CharClass)
  /-- The repetition `cls*` (greedy) or `cls*?` (not greedy). -/
  | star (cls : CharClass) (greedy : Bool)
  /-- The repetition `cls+` (greedy) or `cls+?`. -/
  | plus (cls : CharClass) (greedy : Bool)
  /-- A capture boundary: the current offset goes into the slot. -/
  | capture (slot : Nat)
  /-- The anchor `^` (without the `m` flag): start of the text. -/
  | beginText
  /-- The anchor `$` (without the `m` flag): end of the text. -/
  | endText
  deriving DecidableEq, Repr

/-- The match offsets of `regexp`: slot `2i` and `2i+1` hold the bounds of
group `i`, `none` where Go has `-1`. -/
abbrev Slots := List (Option Nat)

/-- A compiled pattern. -/
structure Regexp where
  /-- The items, in sequence. -/
  prog : List Op
  /-- Number of parenthesised groups. -/
  numSubexp : Nat
  /-- Names of the groups, group 0 first; the empty string for no name. -/
  subexpNames : List Str

/-- The items matching a literal text. -/
def lits (w : Str) : List Op := w.map fun c => Op.rune (CharClass.lit c)

/-- Backtracking over a repetition of a single-rune class, `k` matching what
follows it: a greedy repetition first tries one more rune, a non-greedy one
first tries what follows. -/
def starLoop (test : Char → Bool) (greedy : Bool)
    (k : Nat → Str → Slots → Option Slots) : Nat → Str → Slots → Option Slots
  | pos, [], caps => k pos [] caps
  | pos, c :: cs, caps =>
    if greedy then
      match (if test c then starLoop test greedy k (pos + 1) cs caps else none) with
      | some m => some m
      | none => k pos (c :: cs) caps
    else
      match k pos (c :: cs) caps with
      | some m => some m
      | none => if test c then starLoop test greedy k (pos + 1) cs caps else none

/-- Backtracking match of a pattern at offset `pos`, where the rest of the
text is `s`; the result holds the end of the match in slot 1. -/
def run : List Op → Nat → Str → Slots → Option Slots
  | [] => fun pos _ caps => some (caps.set 1 (some pos))
  | Op.rune cls :: k => fun pos s caps =>
    match s with
    | [] => none
    | c :: cs => if cls.test c then run k (pos + 1) cs caps else none
  | Op.star cls greedy :: k => starLoop cls.test greedy (run k)
  | Op.plus cls greedy :: k => fun pos s caps =>
    match s with
    | [] => none
    | c :: cs =>
      if cls.test c then starLoop cls.test greedy (run k) (pos + 1) cs caps else none
  | Op.capture slot :: k => fun pos s caps => run k pos s (caps.set slot (some pos))
  | Op.beginText :: k => fun pos s caps => if pos = 0 then run k pos s caps else none
  | Op.endText :: k => fun pos s caps => if s = [] then run k pos s caps else none

/-- Unanchored search: the leftmost offset from `pos` at which the pattern
matches. -/
def search (re : Regexp) : Nat → Str → Option Slots
  | pos, [] =>
    run re.prog pos [] ((List.replicate (2 * (re.numSubexp + 1)) none).set 0 (some pos))
  | pos, c :: cs =>
    match run re.prog pos (c :: cs)
        ((List.replicate (2 * (re.numSubexp + 1)) none).set 0 (some pos)) with
    | some m => some m
    | none => search re (pos + 1) cs

/-- Go `(*Regexp).doExecute` on a string: the offsets of the leftmost match
at or after `pos`, cut to `ncap` slots; `none` where Go returns nil. -/
def Regexp.doExecute (re : Regexp) (src : Str) (pos ncap : Nat) : Option Slots :=
  (search re pos (src.drop pos)).map fun m => m.take ncap

/-- The text of group `i` of a match, empty when the group is not there. -/
def group (src : Str) (a : Slots) (i : Nat) : Str :=
  match a.get? (2 * i), a.get? (2 * i + 1) with
  | some (some lo), some (some hi) => slice src lo hi
  | _, _ => []

/-- Go `(*Regexp).MatchString`. -/
def Regexp.MatchString (re : Regexp) (s : Str) : Bool :=
  (re.doExecute s 0 0).isSome

/-- Go `(*Regexp).FindStringSubmatch`: the texts of the leftmost match and
of its groups; the empty list where Go returns nil. -/
def Regexp.FindStringSubmatch (re : Regexp) (s : Str) : List Str :=
  match re.doExecute s 0 (2 * (re.numSubexp + 1)) with
  | none => []
  | some a => (List.range (1 + re.numSubexp)).map fun i => group s a i

/-- Go `strings.Cut` at a single rune: the text before and after its first
instance, `none` when it is not there. -/
def cut (sep : Char) : Str → Option (Str × Str)
  | [] => none
  | c :: cs =>
    if c = sep then some ([], cs)
    else (cut sep cs).map fun r => (c :: r.1, r.2)

/-- The runes of a group reference in a template: letters, digits, `_`. -/
def isNameRune (U : Unicode) (c : Char) : Bool :=
  U.IsLetter c || U.IsDigit c || c == '_'

/-- The number a group reference stands for, `none` (Go: `-1`) when the name
is not a number without leading zero below the engine's bound. -/
def parseNum (name : Str) : Option Nat :=
  let num := name.foldl
    (fun acc c =>
      match acc with
      | none => none
      | some n => if c < '0' ∨ '9' < c ∨ 100000000 ≤ n then none
                  else some (n * 10 + (c.toNat - '0'.toNat)))
    (some 0)
  if name.head? = some '0' ∧ 1 < name.length then none else num

/-- Go `regexp.extract`: the leading `name` or `\x7bname\x7d` of a template
(the `$` already removed): the name, its number, and the rest; `none`
where Go reports `ok = false`. -/
def extract (U : Unicode) (str : Str) : Option (Str × Option Nat × Str) :=
  match str with
  | [] => none
  | c :: cs =>
    let brace := c == '\x7b'
    let str := if brace then cs else c :: cs
    let name := str.takeWhile (isNameRune U)
    let i := name.length
    if i = 0 then none
    else if brace && ((str.drop i).head? != some '\x7d') then none
    else some (name, parseNum name, str.drop (if brace then i + 1 else i))

/-- The text a named reference stands for: the first group of that name
that took part in the match. -/
def namedGroup (src : Str) (a : Slots) (name : Str) : Nat → List Str → Str
  | _, [] => []
  | i, namei :: rest =>
    if name = namei ∧ 2 * i + 1 < a.length ∧ (a.get? (2 * i)).join.isSome then
      group src a i
    else namedGroup src a name (i + 1) rest

/-- The loop of Go `(*Regexp).expand`: `template` is appended to `dst` with
`$$` turned into `$`, `$name` and `$\x7bname\x7d` into the text of the group, and
any other `$` kept. -/
def expandLoop (U : Unicode) (re : Regexp) (src : Str) (a : Slots) :
    Nat → Str → Str → Str
  | 0, dst, template => dst ++ template
  | fuel + 1, dst, template =>
    match cut '$' template with
    | none => dst ++ template
    | some (before, after) =>
      match after with
      | '$' :: rest => expandLoop U re src a fuel (dst ++ before ++ ['$']) rest
      | _ =>
        match extract U after with
        | none => expandLoop U re src a fuel (dst ++ before ++ ['$']) after
        | some (_, some num, rest) =>
          expandLoop U re src a fuel
            (dst ++ before ++
              (if 2 * num + 1 < a.length then group src a num else [])) rest
        | some (name, none, rest) =>
          expandLoop U re src a fuel
            (dst ++ before ++ namedGroup src a name 0 re.subexpNames) rest

/-- Go `(*Regexp).expand`.  Every turn of the loop removes a `$` from the
template, so the length of the template bounds the number of turns. -/
def Regexp.expand (U : Unicode) (re : Regexp) (dst template src : Str) (a : Slots) : Str :=
  expandLoop U re src a (template.length + 1) dst template

/-- The loop of Go `(*Regexp).replaceAll` for a string source: `searchPos`
is where the next match is looked for, `lastMatchEnd` the end of the last
match, `buf` the output so far. -/
def replaceAllLoop (re : Regexp) (src : Str) (nmatch : Nat) (repl : Str → Slots → Str) :
    Nat → Nat → Nat → Str → Str
  | 0, _, lastMatchEnd, buf => buf ++ src.drop lastMatchEnd
  | fuel + 1, searchPos, lastMatchEnd, buf =>
    if searchPos ≤ src.length then
      match re.doExecute src searchPos nmatch with
      | none => buf ++ src.drop lastMatchEnd
      | some a =>
        let a0 := (a.get? 0).join.getD 0
        let a1 := (a.get? 1).join.getD 0
        let buf1 := buf ++ slice src lastMatchEnd a0
        let buf2 := if lastMatchEnd < a1 ∨ a0 = 0 then repl buf1 a else buf1
        let width := if searchPos < src.length then 1 else 0
        let next :=
          if a1 < searchPos + width then searchPos + width
          else if a1 < searchPos + 1 then searchPos + 1
          else a1
        replaceAllLoop re src nmatch repl fuel next a1 buf2
    else buf ++ src.drop lastMatchEnd

/-- Go `(*Regexp).ReplaceAllString`: every match of the pattern in `src`
is replaced by the expansion of the template `repl`.  The search offset
grows with every turn of the loop and the loop ends once it passes the
length of `src`, which bounds the number of turns. -/
def Regexp.ReplaceAllString (U : Unicode) (re : Regexp) (src repl : Str) : Str :=
  let n := if '$' ∈ repl then 2 * (re.numSubexp + 1) else 2
  replaceAllLoop re src n (fun dst a => re.expand U dst repl src a)
    (src.length + 2) 0 0 []

/-- Go `regexp.MustCompile` at the pattern `<BaseURL>(.*?)</BaseURL>`. -/
def reBaseURL : Regexp where
  prog := lits "<BaseURL>".toList
    ++ [Op.capture 2, Op.star CharClass.dot false, Op.capture 3]
    ++ lits "</BaseURL>".toList
  numSubexp := 1
  subexpNames := [[], []]

/-- Go `regexp.MustCompile` at the pattern `^.*filename=\"([^\"]+)\".*$`. -/
def reFilename : Regexp where
  prog := [Op.beginText, Op.star CharClass.dot true]
    ++ lits "filename=\"".toList
    ++ [Op.capture 2, Op.plus (CharClass.notCh '"') true, Op.capture 3,
        Op.rune (CharClass.lit '"'), Op.star CharClass.dot true, Op.endText]
  numSubexp := 1
  subexpNames := [[], []]

/-! ## Package `net/http`: header maps and responses -/

/-- Go `textproto.validHeaderFieldByte`: the token characters of RFC 7230. -/
def validHeaderFieldByte (c : Char) : Bool :=
  c.isAlphanum || "!#$%&'*+-.^_`|~".toList.contains c

/-- The rewriting loop of `textproto.canonicalMIMEHeaderKey`: upper case for
the first letter and after each dash, lower case elsewhere. -/
def canonLoop : Bool → Str → Str
  | _, [] => []
  | upper, c :: cs =>
    let c1 := if upper then c.toUpper else c.toLower
    c1 :: canonLoop (c1 == '-') cs

/-- Go `textproto.CanonicalMIMEHeaderKey`: a key with a character that is
not a token character is returned unchanged. -/
def CanonicalMIMEHeaderKey (s : Str) : Str :=
  if s.all validHeaderFieldByte then canonLoop true s else s

/-- Go `http.Header`, a `map[string][]string`: the entries in the order a
`range` visits them, the keys pairwise different. -/
abbrev Header := List (Str × List Str)

/-- The map assignment `h[k] = v`. -/
def mapSet : Header → Str → List Str → Header
  | [], k, v => [(k, v)]
  | (k1, v1) :: rest, k, v =>
    if k1 = k then (k, v) :: rest else (k1, v1) :: mapSet rest k v

/-- Go `Header.Set`: the key is canonicalised, the entry replaced by the
single value. -/
def Header.Set (h : Header) (key value : Str) : Header :=
  mapSet h (CanonicalMIMEHeaderKey key) [value]

/-- The map read `h[k]`: `none` when the key is not in the map. -/
def mapGet : Header → Str → Option (List Str)
  | [], _ => none
  | (k1, v1) :: rest, k => if k1 = k then some v1 else mapGet rest k

/-- Go `Header.Get`: the first value under the canonicalised key, or the
empty string. -/
def Header.Get (h : Header) (key : Str) : Str :=
  match mapGet h (CanonicalMIMEHeaderKey key) with
  | some (v :: _) => v
  | _ => []

/-- Go `url.Values.Get`: the first value under the key, or the empty string. -/
def valuesGet (v : Header) (key : Str) : Str :=
  match mapGet v key with
  | some (x :: _) => x
  | _ => []

/-- What the handler wrote to its `http.ResponseWriter`. -/
structure Response where
  /-- The status code. -/
  status : Nat
  /-- The header map `w.Header()` at the time the status is written. -/
  header : Header
  /-- The body. -/
  body : Str
  deriving DecidableEq

/-- Go `http.Error` on a writer whose header map is still empty. -/
def httpError (msg : Str) (code : Nat) : Response where
  status := code
  header := [("Content-Type".toList, ["text/plain; charset=utf-8".toList]),
             ("X-Content-Type-Options".toList, ["nosniff".toList])]
  body := msg ++ ['\n']

/-- The response `client.Do` returned without error. -/
structure Upstream where
  /-- The URL the fetch ended at, `resp.Request.URL.String()`. -/
  finalURL : Str
  /-- The result of `io.ReadAll(resp.Body)`, `none` for a read error. -/
  body : Option Str
  /-- The status code `resp.StatusCode`; the client hands on no informational
  status but 101. -/
  statusCode : Nat
  /-- The header map `resp.Header`. -/
  header : Header

/-- The result of `http.NewRequest` followed by `client.Do`. -/
inductive DoResult where
  /-- The URL did not parse: `NewRequest` returned nil (its error is
  dropped by the handler) and `client.Do(nil)` dereferences it. -/
  | nilRequest
  /-- The fetch failed with an error. -/
  | failed
  /-- The fetch returned a response. -/
  | ok (resp : Upstream)

/-- The world around one call of the handler. -/
structure Env where
  /-- The embedded `static/index.html`, `none` when it cannot be opened. -/
  index : Option Str
  /-- The outcome of a GET of the given URL. -/
  fetch : Str → DoResult

/-- The parts of the inbound request the handler reads. -/
structure Request where
  /-- The raw query string `req.URL.RawQuery`. -/
  rawQuery : Str
  /-- The parsed query `req.URL.Query()`, a `map[string][]string` as well. -/
  query : Header

/-- The effects of one call of the handler. -/
structure Outcome where
  /-- The response written. -/
  response : Response
  /-- The URLs the outbound client was asked to fetch, in order. -/
  fetched : List Str

/-! ## The handler `handelMain` -/

/-- Lines 88-94: the new base URL.  An original base URL starting with
`http` gets the proxy prefix in front; any other one gets the proxy prefix
and the directory of the final URL in front. -/
def baseUrl (proxyUrl finalURL originBaseUrl : Str) : Option Str :=
  if HasPrefix originBaseUrl "http".toList then
    some (proxyUrl ++ originBaseUrl)
  else
    match goSlice finalURL 0 (LastIndex finalURL "/".toList + 1) with
    | none => none
    | some originUrl => some (proxyUrl ++ originUrl ++ originBaseUrl)

/-- Line 95: the template handed to `ReplaceAllString`. -/
def newTag (baseUrl : Str) : Str :=
  "<BaseURL>".toList ++ baseUrl ++ "</BaseURL>".toList

/-- Line 106: the test that keeps an upstream header out of the response. -/
def isStripped (U : Unicode) (key : Str) : Bool :=
  EqualFold U (ToLower U key) "connection".toList
    || EqualFold U (ToLower U key) "content-disposition".toList
    || EqualFold U (ToLower U key) "content-length".toList
    || EqualFold U (ToLower U key) "proxy-connection".toList
    || EqualFold U (ToLower U key) "transfer-encoding".toList

/-- Lines 105-110: the loop over the upstream headers, starting from the
header map `w` of the writer. -/
def copyHeaders (U : Unicode) (w : Header) : Header → Header
  | [] => w
  | (key, values) :: rest =>
    if isStripped U key then copyHeaders U w rest
    else copyHeaders U (Header.Set w key (Join values ",".toList)) rest

/-- Lines 113-120: the file name taken from the upstream
`Content-Disposition`, empty when there is none. -/
def dispositionFileName (U : Unicode) (responseHeaders : Header) : Str :=
  let contentDisposition := ToLower U (Header.Get responseHeaders "Content-Disposition".toList)
  if contentDisposition ≠ [] then
    if reFilename.MatchString contentDisposition then
      reFilename.ReplaceAllString U contentDisposition "$1".toList
    else []
  else []

/-- Lines 121-128: the file name taken from the final URL. -/
def urlFileName (finalURL : Str) : Option Str :=
  let queryIndex := Index finalURL "?".toList
  if queryIndex = -1 then
    goSlice finalURL (LastIndex finalURL "/".toList + 1) finalURL.length
  else
    match goSlice finalURL 0 queryIndex with
    | none => none
    | some head => goSlice finalURL (LastIndex head "/".toList + 1) queryIndex

/-- Lines 113-128: the file name of the response. -/
def fileName (U : Unicode) (responseHeaders : Header) (finalURL : Str) : Option Str :=
  let name := dispositionFileName U responseHeaders
  if name = [] then urlFileName finalURL else some name

/-- The length `len(s)` of a Go string, in bytes. -/
def byteLen (s : Str) : Nat := (s.map Char.utf8Size).sum

/-- Go `http.checkWriteHeaderCode`: `WriteHeader` panics on a status code
outside 100..999. -/
def validStatus (code : Nat) : Bool := decide (100 ≤ code) && decide (code ≤ 999)

/-- Lines 65-141: the relay of a fetched response; `none` is a panic. -/
def relay (U : Unicode) (proxyUrl : Str) (resp : Upstream) : Option Response :=
  let finalURL := resp.finalURL
  match resp.body with
  | none => some (httpError "读取目标响应内容失败".toList 500)
  | some mpdContent =>
    let matched := reBaseURL.FindStringSubmatch mpdContent
    if matched.length < 2 then
      some (httpError "MPD 中未找到 BaseURL".toList 500)
    else
      match matched.get? 1 with
      | none => none
      | some originBaseUrl =>
        match baseUrl proxyUrl finalURL originBaseUrl with
        | none => none
        | some base =>
          let newMpdContent := reBaseURL.ReplaceAllString U mpdContent (newTag base)
          if newMpdContent = [] then
            some (httpError "生成的 MPD 内容为空".toList 500)
          else
            let w := copyHeaders U [] resp.header
            match fileName U resp.header finalURL with
            | none => none
            | some name =>
              let w1 := Header.Set w "Content-Disposition".toList
                ("attachment; filename*=UTF-8''".toList ++ name)
              let w2 := Header.Set w1 "Content-Length".toList
                (Nat.repr (byteLen newMpdContent)).toList
              let w3 := Header.Set w2 "Connection".toList "close".toList
              if validStatus resp.statusCode then
                some { status := resp.statusCode, header := w3, body := newMpdContent }
              else none

/-- The handler `handelMain`; `none` is a panic, after which the server
sends no response. -/
def handelMain (U : Unicode) (env : Env) (req : Request) : Option Outcome :=
  if req.rawQuery = [] then
    match env.index with
    | none => some ⟨httpError "内部服务器错误".toList 500, []⟩
    | some page => some ⟨⟨200, [], page⟩, []⟩
  else
    let mpdUrl := valuesGet req.query "mpdurl".toList
    let proxyUrl := valuesGet req.query "proxyurl".toList
    if mpdUrl = [] ∨ proxyUrl = [] then
      some ⟨httpError "缺少 mpdurl 或 proxyurl 参数".toList 400, []⟩
    else
      match env.fetch mpdUrl with
      | DoResult.nilRequest => none
      | DoResult.failed => some ⟨httpError "访问目标地址失败".toList 500, [mpdUrl]⟩
      | DoResult.ok resp => (relay U proxyUrl resp).map fun r => ⟨r, [mpdUrl]⟩

/-- The canonical names of the five headers the handler does not copy. -/
def strippedNames : List Str :=
  ["Connection".toList, "Content-Disposition".toList, "Content-Length".toList,
   "Proxy-Connection".toList, "Transfer-Encoding".toList]

/-- Whether every rune of a text is ASCII. -/
def isASCII (s : Str) : Bool := s.all fun c => decide (c.toNat < 128)

/-- Whether two header names are the same once the case of their ASCII
letters is ignored. -/
def sameNameIgnoringCase (a b : Str) : Bool := a.map Char.toLower == b.map Char.toLower

/-- Whether a header name is, case-insensitively, one of `Connection`,
`Content-Disposition`, `Content-Length`, `Proxy-Connection` and
`Transfer-Encoding`. -/
def isOneOfFive (key : Str) : Bool := strippedNames.any fun k0 => sameNameIgnoringCase key k0

/-- The request is relayed: it has a query string with both parameters, the
fetch of the manifest URL returned the response `resp`, and the body of
that response was read as the text `mpd` (line 75 is reached). -/
structure Relayed (env : Env) (req : Request) (resp : Upstream) (mpd : Str) : Prop where
  /-- The raw query string is not empty. -/
  hasQuery : req.rawQuery ≠ []
  /-- The parameter `mpdurl` is there. -/
  hasMpdUrl : valuesGet req.query "mpdurl".toList ≠ []
  /-- The parameter `proxyurl` is there. -/
  hasProxyUrl : valuesGet req.query "proxyurl".toList ≠ []
  /-- The fetch returned a response. -/
  fetched : env.fetch (valuesGet req.query "mpdurl".toList) = DoResult.ok resp
  /-- The body was read. -/
  bodyRead : resp.body = some mpd

/-- The header map of the response on the success path (lines 105-133):
the copied upstream headers, then the three headers the handler sets. -/
def successHeader (U : Unicode) (upstream : Header) (name newMpdContent : Str) : Header :=
  Header.Set
    (Header.Set
      (Header.Set (copyHeaders U [] upstream) "Content-Disposition".toList
        ("attachment; filename*=UTF-8''".toList ++ name))
      "Content-Length".toList (Nat.repr (byteLen newMpdContent)).toList)
    "Connection".toList "close".toList

/-- The spec's reading of the substitution: every instance of the literal
text `old` in a text is replaced by `new`, from left to right without
overlap, as Go `strings.ReplaceAll` does; `skip` runes of an instance
already replaced are still to be passed over. -/
def replaceLiteralFrom (old new : Str) : Nat → Str → Str
  | _, [] => []
  | skip + 1, _ :: cs => replaceLiteralFrom old new skip cs
  | 0, c :: cs =>
    if old.isPrefixOf (c :: cs) ∧ old ≠ [] then
      new ++ replaceLiteralFrom old new (old.length - 1) cs
    else c :: replaceLiteralFrom old new 0 cs

/-- The spec's reading of the substitution, on a whole text. -/
def replaceLiteralAll (old new s : Str) : Str := replaceLiteralFrom old new 0 s

/-- A world in which every fetch returns the given response. -/
def envOf (resp : Upstream) : Env := ⟨none, fun _ => DoResult.ok resp⟩

/-- A request with the two parameters `mpdurl` and `proxyurl`. -/
def requestOf (mpdUrl proxyUrl : Str) : Request where
  rawQuery := "mpdurl=".toList ++ mpdUrl ++ "&proxyurl=".toList ++ proxyUrl
  query := [("mpdurl".toList, [mpdUrl]), ("proxyurl".toList, [proxyUrl])]

/-! ## The patterns, read as scans of the text

Functions on texts that say what the two patterns match, against which the
backtracking engine is characterised below. -/

/-- The opening tag of the element the handler rewrites. -/
def openTag : Str := "<BaseURL>".toList

/-- The closing tag of the element the handler rewrites. -/
def closeTag : Str := "</BaseURL>".toList

/-- The text up to the first closing tag, when no line feed comes before
that tag, and the text after the tag. -/
def lazyClose : Str → Option (Str × Str)
  | [] => none
  | c :: cs =>
    if closeTag.isPrefixOf (c :: cs) then some ([], (c :: cs).drop closeTag.length)
    else if c = '\n' then none
    else (lazyClose cs).map fun r => (c :: r.1, r.2)

/-- The leftmost `<BaseURL>…</BaseURL>` element on one line: the text before
it, its content up to the first closing tag, and the text after it. -/
def findSpan : Str → Option (Str × Str × Str)
  | [] => none
  | c :: cs =>
    match (if openTag.isPrefixOf (c :: cs) then lazyClose ((c :: cs).drop openTag.length)
           else none) with
    | some r => some ([], r.1, r.2)
    | none => (findSpan cs).map fun r => (c :: r.1, r.2.1, r.2.2)

/-- The literal text of the pattern `^.*filename=\"([^\"]+)\".*$`. -/
def fnTag : Str := "filename=\"".toList

/-- The items of the file name pattern after its literal text. -/
def fnTail : List Op :=
  [Op.capture 2, Op.plus (CharClass.notCh '"') true, Op.capture 3,
    Op.rune (CharClass.lit '"'), Op.star CharClass.dot true, Op.endText]

/-- The offsets of a match of `<BaseURL>(.*?)</BaseURL>` that starts at
`start` and captures `n` runes. -/
def spanSlots (start n : Nat) : Slots :=
  [some start, some (start + 9 + n + 10), some (start + 9), some (start + 9 + n)]

/-- The text holds a `<BaseURL>` tag followed on the same line by a
`</BaseURL>` tag. -/
def HasSpan (s : Str) : Prop :=
  ∃ pre c post, s = pre ++ openTag ++ c ++ closeTag ++ post ∧ '\n' ∉ c

/-- The split `s = g ++ <BaseURL> ++ c ++ </BaseURL> ++ r` is the leftmost-first
match of the pattern in `s`: `c` is on one line, the closing tag is the first
one after the opening tag, and no element on one line starts before `g` ends. -/
structure FirstMatch (s g c r : Str) : Prop where
  /-- The split of the text. -/
  split : s = g ++ openTag ++ c ++ closeTag ++ r
  /-- The captured text has no line feed. -/
  oneLine : '\n' ∉ c
  /-- The closing tag is the first one after the opening tag. -/
  shortest : ∀ c1 c2, c ++ closeTag = c1 ++ closeTag ++ c2 → c2 = []
  /-- No element on one line starts earlier. -/
  leftmost : ∀ pre c1 post, s = pre ++ openTag ++ c1 ++ closeTag ++ post →
    '\n' ∉ c1 → g.length ≤ pre.length

/-- The text `out` is `s` with every match of the pattern, taken from left
to right without overlap, replaced by `tag`, and nothing else changed. -/
inductive RewrittenAll (tag : Str) : Str → Str → Prop where
  /-- A text without a match stays as it is. -/
  | done (s : Str) : ¬ HasSpan s → RewrittenAll tag s s
  /-- The first match is replaced and the text after it rewritten. -/
  | step (s g c r out : Str) : FirstMatch s g c r → RewrittenAll tag r out →
      RewrittenAll tag s (g ++ tag ++ out)

/-! ## Engine lemmas -/

theorem run_lits (w : Str) (k : List Op) (pos : Nat) (s : Str) (caps : Slots) :
    run (lits w ++ k) pos s caps =
      if w.isPrefixOf s then run k (pos + w.length) (s.drop w.length) caps else none := by
  induction w generalizing pos s with
  | nil => simp [lits]
  | cons x w ih =>
    cases s with
    | nil => simp [lits, run]
    | cons c cs =>
      have h := ih (pos + 1) cs
      simp only [lits] at h
      simp only [lits, List.map_cons, List.cons_append, run, CharClass.test,
        List.isPrefixOf, List.length_cons, List.drop_succ_cons, List.append_eq]
      rw [h]
      by_cases hx : c = x
      · subst hx
        simp only [beq_self_eq_true, if_true, Bool.true_and]
        rw [show pos + 1 + w.length = pos + (w.length + 1) by omega]
      · have h1 : (c == x) = false := by simpa using hx
        have h2 : (x == c) = false := by simpa using fun h => hx h.symm
        simp [h1, h2]

theorem run_closeTail (pos : Nat) (t : Str) (caps : Slots) :
    run (Op.capture 3 :: lits closeTag) pos t caps =
      if closeTag.isPrefixOf t then
        some ((caps.set 3 (some pos)).set 1 (some (pos + 10))) else none := by
  have h := run_lits closeTag [] pos t (caps.set 3 (some pos))
  rw [List.append_nil] at h
  have e : run (Op.capture 3 :: lits closeTag) pos t caps =
      run (lits closeTag) pos t (caps.set 3 (some pos)) := rfl
  rw [e, h]
  rfl

theorem starLoop_lazyClose (pos : Nat) (t : Str) (caps : Slots) :
    starLoop CharClass.dot.test false (run (Op.capture 3 :: lits closeTag)) pos t caps =
      (lazyClose t).map fun r =>
        (caps.set 3 (some (pos + r.1.length))).set 1 (some (pos + r.1.length + 10)) := by
  induction t generalizing pos with
  | nil =>
    simp only [starLoop, run_closeTail, lazyClose]
    rfl
  | cons c cs ih =>
    simp only [starLoop, run_closeTail, lazyClose, Bool.false_eq_true, if_false]
    by_cases hp : closeTag.isPrefixOf (c :: cs) = true
    · simp [hp]
    · simp only [hp, if_false]
      by_cases hc : c = '\n'
      · simp [hc, CharClass.test]
      · have : CharClass.dot.test c = true := by simp [CharClass.test, hc]
        simp only [this, if_true, hc, if_false, ih, Bool.false_eq_true]
        cases lazyClose cs <;> simp [Nat.add_assoc, Nat.add_comm 1]

theorem run_reBaseURL (pos : Nat) (s : Str) (caps : Slots) :
    run reBaseURL.prog pos s caps =
      if openTag.isPrefixOf s then
        (lazyClose (s.drop openTag.length)).map fun r =>
          (((caps.set 2 (some (pos + 9))).set 3 (some (pos + 9 + r.1.length))).set 1
            (some (pos + 9 + r.1.length + 10)))
      else none := by
  have h := run_lits openTag
    ([Op.capture 2, Op.star CharClass.dot false, Op.capture 3] ++ lits closeTag) pos s caps
  have e : reBaseURL.prog = lits openTag ++
      ([Op.capture 2, Op.star CharClass.dot false, Op.capture 3] ++ lits closeTag) := rfl
  rw [e, h]
  by_cases hp : openTag.isPrefixOf s = true
  · simp only [hp, if_true]
    have e2 : run ([Op.capture 2, Op.star CharClass.dot false, Op.capture 3] ++ lits closeTag)
        (pos + openTag.length) (s.drop openTag.length) caps =
        starLoop CharClass.dot.test false (run (Op.capture 3 :: lits closeTag))
          (pos + 9) (s.drop openTag.length) (caps.set 2 (some (pos + 9))) := rfl
    rw [e2, starLoop_lazyClose]
  · simp [hp]

theorem search_reBaseURL (pos : Nat) (s : Str) :
    search reBaseURL pos s =
      (findSpan s).map fun r => spanSlots (pos + r.1.length) r.2.1.length := by
  induction s generalizing pos with
  | nil =>
    simp only [search, run_reBaseURL, findSpan]
    rfl
  | cons c cs ih =>
    simp only [search, run_reBaseURL, findSpan]
    by_cases hp : openTag.isPrefixOf (c :: cs) = true
    · simp only [hp, if_true]
      cases hl : lazyClose (List.drop openTag.length (c :: cs)) with
      | none =>
        simp only [Option.map_none', ih]
        cases findSpan cs <;> simp [Nat.add_assoc, Nat.add_comm 1]
      | some r =>
        simp [reBaseURL, spanSlots, List.set, List.replicate]
    · simp only [hp, if_false, Bool.false_eq_true, ih]
      cases findSpan cs <;> simp [Nat.add_assoc, Nat.add_comm 1]

theorem isPrefixOf_split {w s : Str} (h : w.isPrefixOf s = true) :
    s = w ++ s.drop w.length := by
  have := List.isPrefixOf_iff_prefix.mp h
  exact (List.prefix_iff_eq_append.mp this).symm

theorem isPrefixOf_append (w r : Str) : w.isPrefixOf (w ++ r) = true :=
  List.isPrefixOf_iff_prefix.mpr (List.prefix_append w r)

theorem lazyClose_split {t c r : Str} (h : lazyClose t = some (c, r)) :
    t = c ++ closeTag ++ r ∧ '\n' ∉ c := by
  induction t generalizing c r with
  | nil => simp [lazyClose] at h
  | cons x xs ih =>
    simp only [lazyClose] at h
    by_cases hp : closeTag.isPrefixOf (x :: xs) = true
    · simp only [hp, if_true, Option.some.injEq, Prod.mk.injEq] at h
      obtain ⟨rfl, rfl⟩ := h
      exact ⟨by simpa using isPrefixOf_split hp, by simp⟩
    · simp only [hp, Bool.false_eq_true, if_false] at h
      by_cases hx : x = '\n'
      · simp [hx] at h
      · simp only [hx, if_false] at h
        cases hl : lazyClose xs with
        | none => simp [hl] at h
        | some p =>
          obtain ⟨c0, r0⟩ := p
          simp only [hl, Option.map_some', Option.some.injEq, Prod.mk.injEq] at h
          obtain ⟨rfl, rfl⟩ := h
          obtain ⟨e, hn⟩ := ih hl
          refine ⟨by simp [e], ?_⟩
          simp only [List.mem_cons, not_or]
          exact ⟨fun h => hx h.symm, hn⟩

theorem lazyClose_shortest {t c r : Str} (h : lazyClose t = some (c, r)) :
    ∀ c1 c2, c ++ closeTag = c1 ++ closeTag ++ c2 → c2 = [] := by
  induction t generalizing c r with
  | nil => simp [lazyClose] at h
  | cons x xs ih =>
    simp only [lazyClose] at h
    by_cases hp : closeTag.isPrefixOf (x :: xs) = true
    · simp only [hp, if_true, Option.some.injEq, Prod.mk.injEq] at h
      obtain ⟨rfl, rfl⟩ := h
      intro c1 c2 e
      have hl := congrArg List.length e
      simp only [List.nil_append, List.length_append] at hl
      exact List.length_eq_zero.mp (by omega)
    · simp only [hp, Bool.false_eq_true, if_false] at h
      by_cases hx : x = '\n'
      · simp [hx] at h
      · simp only [hx, if_false] at h
        cases hl : lazyClose xs with
        | none => simp [hl] at h
        | some p =>
          obtain ⟨c0, r0⟩ := p
          simp only [hl, Option.map_some', Option.some.injEq, Prod.mk.injEq] at h
          obtain ⟨rfl, rfl⟩ := h
          obtain ⟨e, _⟩ := lazyClose_split hl
          intro c1 c2 e2
          cases c1 with
          | nil =>
            exfalso
            apply hp
            rw [e]
            have : x :: (c0 ++ closeTag ++ r0) = closeTag ++ (c2 ++ r0) := by
              have := congrArg (· ++ r0) e2
              simpa using this
            rw [this]
            exact isPrefixOf_append _ _
          | cons y c1 =>
            simp only [List.cons_append, List.cons.injEq] at e2
            exact ih hl c1 c2 e2.2

theorem lazyClose_at_close {t : Str} (hp : closeTag.isPrefixOf t = true) :
    lazyClose t = some ([], t.drop closeTag.length) := by
  cases t with
  | nil => exact absurd hp (by decide)
  | cons x xs => simp only [lazyClose, hp, if_true]

theorem lazyClose_cons_step {x : Char} {xs : Str}
    (hp : ¬ closeTag.isPrefixOf (x :: xs) = true) (hx : x ≠ '\n') :
    lazyClose (x :: xs) = (lazyClose xs).map fun r => (x :: r.1, r.2) := by
  simp only [lazyClose, hp, if_false, hx, Bool.false_eq_true]

theorem lazyClose_complete (c post : Str) (hn : '\n' ∉ c) :
    (lazyClose (c ++ closeTag ++ post)).isSome = true := by
  induction c with
  | nil =>
    have hp : closeTag.isPrefixOf (([] : Str) ++ closeTag ++ post) = true :=
      isPrefixOf_append _ _
    rw [lazyClose_at_close hp]
    rfl
  | cons x c ih =>
    simp only [List.mem_cons, not_or] at hn
    by_cases hp : closeTag.isPrefixOf (x :: c ++ closeTag ++ post) = true
    · rw [lazyClose_at_close hp]
      rfl
    · have hx : x ≠ '\n' := fun h => hn.1 h.symm
      have e : x :: c ++ closeTag ++ post = x :: (c ++ closeTag ++ post) := rfl
      rw [e] at hp ⊢
      rw [lazyClose_cons_step hp hx]
      have := ih hn.2
      cases h : lazyClose (c ++ closeTag ++ post) with
      | none => rw [h] at this; exact absurd this (by decide)
      | some p => rfl

theorem attempt_complete (c1 post : Str) (hn : '\n' ∉ c1) :
    ∃ r, (if openTag.isPrefixOf (openTag ++ c1 ++ closeTag ++ post) then
        lazyClose ((openTag ++ c1 ++ closeTag ++ post).drop openTag.length) else none)
      = some r := by
  have hp : openTag.isPrefixOf (openTag ++ c1 ++ closeTag ++ post) = true := by
    rw [List.append_assoc, List.append_assoc]
    exact isPrefixOf_append _ _
  have hd : (openTag ++ c1 ++ closeTag ++ post).drop openTag.length = c1 ++ closeTag ++ post := by
    rw [List.append_assoc, List.append_assoc, List.drop_left, List.append_assoc]
  rw [if_pos hp, hd]
  have := lazyClose_complete c1 post hn
  cases h : lazyClose (c1 ++ closeTag ++ post) with
  | none => rw [h] at this; exact absurd this (by decide)
  | some r => exact ⟨r, rfl⟩

theorem findSpan_firstMatch {s g c r : Str} (h : findSpan s = some (g, c, r)) :
    FirstMatch s g c r := by
  induction s generalizing g with
  | nil => simp [findSpan] at h
  | cons x xs ih =>
    simp only [findSpan] at h
    cases ha : (if openTag.isPrefixOf (x :: xs) then
        lazyClose ((x :: xs).drop openTag.length) else none) with
    | some p =>
      rw [ha] at h
      simp only [Option.some.injEq, Prod.mk.injEq] at h
      obtain ⟨rfl, rfl, rfl⟩ := h
      by_cases hp : openTag.isPrefixOf (x :: xs) = true
      · rw [if_pos hp] at ha
        obtain ⟨e, hn⟩ := lazyClose_split (c := p.1) (r := p.2) ha
        refine ⟨?_, hn, lazyClose_shortest (c := p.1) (r := p.2) ha, fun _ _ _ _ _ => Nat.zero_le _⟩
        have := isPrefixOf_split hp
        rw [e] at this
        simpa [List.append_assoc] using this
      · rw [if_neg hp] at ha
        exact absurd ha (by simp)
    | none =>
      rw [ha] at h
      cases hf : findSpan xs with
      | none => simp [hf] at h
      | some q =>
        obtain ⟨g0, c0, r0⟩ := q
        simp only [hf, Option.map_some', Option.some.injEq, Prod.mk.injEq] at h
        obtain ⟨rfl, rfl, rfl⟩ := h
        have fm := ih hf
        refine ⟨by simp [fm.split], fm.oneLine, fm.shortest, ?_⟩
        intro pre c1 post e hn
        cases pre with
        | nil =>
          exfalso
          obtain ⟨r, hr⟩ := attempt_complete c1 post hn
          rw [List.nil_append] at e
          rw [← e, ha] at hr
          exact absurd hr (by simp)
        | cons y pre =>
          simp only [List.cons_append, List.cons.injEq] at e
          have := fm.leftmost pre c1 post e.2 hn
          simp only [List.length_cons]
          omega

theorem findSpan_none {s : Str} (h : findSpan s = none) : ¬ HasSpan s := by
  induction s with
  | nil =>
    rintro ⟨pre, c, post, e, _⟩
    have := congrArg List.length e
    simp only [List.length_append, List.length_nil] at this
    have h9 : openTag.length = 9 := rfl
    omega
  | cons x xs ih =>
    simp only [findSpan] at h
    cases ha : (if openTag.isPrefixOf (x :: xs) then
        lazyClose ((x :: xs).drop openTag.length) else none) with
    | some p => rw [ha] at h; exact absurd h (by simp)
    | none =>
      rw [ha] at h
      have hf : findSpan xs = none := by
        cases hf : findSpan xs with
        | none => rfl
        | some q => simp [hf] at h
      rintro ⟨pre, c1, post, e, hn⟩
      cases pre with
      | nil =>
        obtain ⟨r, hr⟩ := attempt_complete c1 post hn
        rw [List.nil_append] at e
        rw [← e, ha] at hr
        exact absurd hr (by simp)
      | cons y pre =>
        simp only [List.cons_append, List.cons.injEq] at e
        exact ih hf ⟨pre, c1, post, e.2, hn⟩

theorem findSpan_isSome_iff (s : Str) : (findSpan s).isSome = true ↔ HasSpan s := by
  constructor
  · intro h
    cases hf : findSpan s with
    | none => rw [hf] at h; exact absurd h (by decide)
    | some q =>
      obtain ⟨g, c, r⟩ := q
      have fm := findSpan_firstMatch hf
      exact ⟨g, c, r, fm.split, fm.oneLine⟩
  · intro h
    cases hf : findSpan s with
    | none => exact absurd h (findSpan_none hf)
    | some q => rfl

theorem slice_mid (a b c : Str) : slice (a ++ b ++ c) a.length (a.length + b.length) = b := by
  simp [slice, List.append_assoc]

theorem slice_mid_add (a b c : Str) (n : Nat) (h : n = b.length) :
    slice (a ++ b ++ c) a.length (a.length + n) = b := by
  subst h
  exact slice_mid a b c

theorem doExecute_reBaseURL (done rest : Str) (n : Nat) :
    reBaseURL.doExecute (done ++ rest) done.length n =
      (findSpan rest).map fun r =>
        (spanSlots (done.length + r.1.length) r.2.1.length).take n := by
  simp only [Regexp.doExecute, List.drop_left, search_reBaseURL, Option.map_map]
  rfl

theorem replaceAllLoop_none (n : Nat) (repl : Str → Slots → Str) (fuel : Nat)
    (done rest buf : Str) (h : findSpan rest = none) :
    replaceAllLoop reBaseURL (done ++ rest) n repl fuel done.length done.length buf
      = buf ++ rest := by
  cases fuel with
  | zero => simp [replaceAllLoop]
  | succ fuel =>
    simp only [replaceAllLoop, doExecute_reBaseURL, h, Option.map_none']
    simp

theorem replaceAllLoop_some (m : Nat) (repl : Str → Slots → Str) (fuel : Nat)
    (done rest buf g c r : Str) (h : findSpan rest = some (g, c, r)) :
    replaceAllLoop reBaseURL (done ++ rest) (m + 2) repl (fuel + 1) done.length done.length buf
      = replaceAllLoop reBaseURL (done ++ rest) (m + 2) repl fuel
          ((done ++ g ++ openTag ++ c ++ closeTag).length)
          ((done ++ g ++ openTag ++ c ++ closeTag).length)
          (repl (buf ++ g) ((spanSlots (done.length + g.length) c.length).take (m + 2))) := by
  have fm := findSpan_firstMatch h
  have hs : rest = g ++ (openTag ++ c ++ closeTag ++ r) := by
    simp [fm.split, List.append_assoc]
  have h9 : openTag.length = 9 := rfl
  have h10 : closeTag.length = 10 := rfl
  have hlen : (done ++ g ++ openTag ++ c ++ closeTag).length
      = done.length + g.length + 9 + c.length + 10 := by
    simp only [List.length_append, h9, h10]
  have hsl : slice (done ++ rest) done.length (done.length + g.length) = g := by
    rw [hs, ← List.append_assoc]
    exact slice_mid done g _
  have hrl : rest.length = g.length + 9 + c.length + 10 + r.length := by
    rw [fm.split]
    simp only [List.length_append, h9, h10]
  rw [hlen]
  simp only [replaceAllLoop, doExecute_reBaseURL, h, Option.map_some', spanSlots,
    List.take_succ_cons, List.get?_cons_zero, List.get?_cons_succ, Option.join,
    Option.getD_some, List.length_append, Option.some_bind, id_eq]
  have c1 : done.length ≤ done.length + rest.length := Nat.le_add_right _ _
  have c2 : done.length < done.length + g.length + 9 + c.length + 10 := by omega
  have c3 : done.length < done.length + rest.length := by omega
  have c4 : ¬ (done.length + g.length + 9 + c.length + 10 < done.length + 1) := by omega
  simp only [c1, c2, c3, c4, if_true, if_false, true_or, hsl]

theorem cut_none_of_not_mem (sep : Char) (t : Str) (h : sep ∉ t) : cut sep t = none := by
  induction t with
  | nil => rfl
  | cons c cs ih =>
    simp only [List.mem_cons, not_or] at h
    have hc : ¬ c = sep := fun e => h.1 e.symm
    simp [cut, hc, ih h.2]

theorem cut_append_of_not_mem (sep : Char) (w t : Str) (h : sep ∉ w) :
    cut sep (w ++ t) = (cut sep t).map fun r => (w ++ r.1, r.2) := by
  induction w with
  | nil => cases hc : cut sep t <;> simp [hc]
  | cons c cs ih =>
    simp only [List.mem_cons, not_or] at h
    have hc : ¬ c = sep := fun e => h.1 e.symm
    have e : cut sep (c :: cs ++ t) = (cut sep (cs ++ t)).map fun r => (c :: r.1, r.2) := by
      simp only [List.cons_append, cut, hc, if_false, List.append_eq]
    rw [e, ih h.2]
    cases cut sep t <;> simp

theorem expandLoop_noDollar (U : Unicode) (re : Regexp) (src : Str) (a : Slots)
    (fuel : Nat) (dst t : Str) (h : '$' ∉ t) :
    expandLoop U re src a fuel dst t = dst ++ t := by
  cases fuel with
  | zero => rfl
  | succ fuel => simp only [expandLoop, cut_none_of_not_mem '$' t h]

theorem prefix_append3 (dst x y : Str) : dst <+: dst ++ x ++ y :=
  ⟨x ++ y, by simp⟩

theorem expandLoop_extends (U : Unicode) (re : Regexp) (src : Str) (a : Slots)
    (fuel : Nat) (dst t : Str) :
    dst <+: expandLoop U re src a fuel dst t := by
  induction fuel generalizing dst t with
  | zero => exact List.prefix_append _ _
  | succ fuel ih =>
    simp only [expandLoop]
    split
    · exact List.prefix_append _ _
    · rename_i before after _
      split
      · exact (prefix_append3 dst before _).trans (ih _ _)
      · split
        · exact (prefix_append3 dst before _).trans (ih _ _)
        · exact (prefix_append3 dst before _).trans (ih _ _)
        · exact (prefix_append3 dst before _).trans (ih _ _)

theorem expandLoop_extends_lit (U : Unicode) (re : Regexp) (src : Str) (a : Slots)
    (fuel : Nat) (dst w t : Str) (h : '$' ∉ w) :
    dst ++ w <+: expandLoop U re src a fuel dst (w ++ t) := by
  cases fuel with
  | zero => exact ⟨t, by simp [expandLoop]⟩
  | succ fuel =>
    simp only [expandLoop, cut_append_of_not_mem '$' w t h]
    cases hc : cut '$' t with
    | none => exact ⟨t, by simp⟩
    | some p =>
      obtain ⟨before, after⟩ := p
      have hp : ∀ x : Str, dst ++ w <+: dst ++ (w ++ before) ++ x :=
        fun x => ⟨before ++ x, by simp⟩
      simp only [Option.map_some']
      split
      · exact (hp _).trans (expandLoop_extends _ _ _ _ _ _ _)
      · split
        · exact (hp _).trans (expandLoop_extends _ _ _ _ _ _ _)
        · exact (hp _).trans (expandLoop_extends _ _ _ _ _ _ _)
        · exact (hp _).trans (expandLoop_extends _ _ _ _ _ _ _)

theorem replaceAllLoop_extends (re : Regexp) (src : Str) (n : Nat)
    (repl : Str → Slots → Str) (hrepl : ∀ b a, b <+: repl b a)
    (fuel sp lme : Nat) (buf : Str) :
    buf <+: replaceAllLoop re src n repl fuel sp lme buf := by
  induction fuel generalizing sp lme buf with
  | zero => exact List.prefix_append _ _
  | succ fuel ih =>
    simp only [replaceAllLoop]
    split
    · split
      · exact List.prefix_append _ _
      · refine List.IsPrefix.trans ?_ (ih _ _ _)
        split
        · exact (List.prefix_append _ _).trans (hrepl _ _)
        · exact List.prefix_append _ _
    · exact List.prefix_append _ _

theorem findStringSubmatch_reBaseURL (s : Str) :
    reBaseURL.FindStringSubmatch s =
      match findSpan s with
      | none => []
      | some r => [openTag ++ r.2.1 ++ closeTag, r.2.1] := by
  have h := doExecute_reBaseURL [] s (2 * (reBaseURL.numSubexp + 1))
  simp only [List.nil_append, List.length_nil, Nat.zero_add] at h
  simp only [Regexp.FindStringSubmatch, h]
  cases hf : findSpan s with
  | none => rfl
  | some q =>
    obtain ⟨g, c, r⟩ := q
    have fm := findSpan_firstMatch hf
    have h9 : openTag.length = 9 := rfl
    have h10 : closeTag.length = 10 := rfl
    have e0 : slice s g.length (g.length + 9 + c.length + 10) = openTag ++ c ++ closeTag := by
      have := slice_mid_add g (openTag ++ c ++ closeTag) r (9 + c.length + 10)
        (by simp only [List.length_append, h9, h10])
      rw [fm.split]
      simpa [List.append_assoc, Nat.add_assoc] using this
    have e1 : slice s (g.length + 9) (g.length + 9 + c.length) = c := by
      have := slice_mid (g ++ openTag) c (closeTag ++ r)
      rw [fm.split]
      simpa [List.append_assoc, h9] using this
    simp [reBaseURL, List.range, List.range.loop, group, spanSlots, e0, e1]

theorem replaceAllLoop_rewritten (m : Nat) (repl : Str → Slots → Str) (tag : Str)
    (hrepl : ∀ b a, repl b a = b ++ tag) (fuel : Nat) (done rest buf : Str)
    (hf : rest.length + 1 ≤ fuel) :
    ∃ out, replaceAllLoop reBaseURL (done ++ rest) (m + 2) repl fuel done.length
        done.length buf = buf ++ out ∧ RewrittenAll tag rest out := by
  induction fuel generalizing done rest buf with
  | zero => omega
  | succ fuel ih =>
    cases hs : findSpan rest with
    | none =>
      exact ⟨rest, replaceAllLoop_none _ _ _ _ _ _ hs, RewrittenAll.done rest (findSpan_none hs)⟩
    | some q =>
      obtain ⟨g, c, r⟩ := q
      have fm := findSpan_firstMatch hs
      rw [replaceAllLoop_some m repl fuel done rest buf g c r hs, hrepl]
      have e : done ++ rest = (done ++ g ++ openTag ++ c ++ closeTag) ++ r := by
        rw [fm.split]
        simp [List.append_assoc]
      have hl : r.length + 1 ≤ fuel := by
        have := congrArg List.length fm.split
        have h9 : openTag.length = 9 := rfl
        simp only [List.length_append, h9] at this
        omega
      rw [e]
      obtain ⟨out, ho, hr⟩ := ih (done ++ g ++ openTag ++ c ++ closeTag) r (buf ++ g ++ tag) hl
      refine ⟨g ++ tag ++ out, ?_, RewrittenAll.step rest g c r out fm hr⟩
      rw [ho]
      simp [List.append_assoc]

theorem replaceAllString_noDollar (U : Unicode) (s tag : Str) (h : '$' ∉ tag) :
    RewrittenAll tag s (reBaseURL.ReplaceAllString U s tag) := by
  have hrepl : ∀ (b : Str) (a : Slots), reBaseURL.expand U b tag s a = b ++ tag :=
    fun b a => expandLoop_noDollar U reBaseURL s a _ b tag h
  obtain ⟨out, ho, hr⟩ := replaceAllLoop_rewritten 0
    (fun dst a => reBaseURL.expand U dst tag s a) tag hrepl (s.length + 2) [] s []
    (by omega)
  simp only [List.nil_append, List.length_nil, Nat.zero_add] at ho
  simp only [Regexp.ReplaceAllString, h, if_false, ho]
  exact hr

theorem replaceAllString_first (U : Unicode) (s x g c r : Str)
    (h : findSpan s = some (g, c, r)) :
    g ++ openTag <+: reBaseURL.ReplaceAllString U s (openTag ++ x) := by
  have hrepl : ∀ (b : Str) (a : Slots), b <+: reBaseURL.expand U b (openTag ++ x) s a :=
    fun b a => expandLoop_extends U reBaseURL s a _ b _
  have hm : ∃ m, (if '$' ∈ openTag ++ x then 2 * (reBaseURL.numSubexp + 1) else 2) = m + 2 := by
    by_cases hd : '$' ∈ openTag ++ x
    · exact ⟨2, by rw [if_pos hd]; rfl⟩
    · exact ⟨0, by rw [if_neg hd]⟩
  obtain ⟨m, hm⟩ := hm
  have hstep := replaceAllLoop_some m (fun dst a => reBaseURL.expand U dst (openTag ++ x) s a)
    (s.length + 1) [] s [] g c r h
  simp only [List.nil_append, List.length_nil] at hstep
  simp only [Regexp.ReplaceAllString]
  rw [hm, show s.length + 2 = s.length + 1 + 1 from rfl, hstep]
  refine List.IsPrefix.trans ?_ (replaceAllLoop_extends _ _ _ _ hrepl _ _ _ _)
  exact expandLoop_extends_lit U reBaseURL s _ _ g openTag x (by decide)

/-! ## Lemmas on `strings.Index`, `strings.LastIndex` and slices -/

theorem lastIndex_bounds (s sub : Str) (h : sub ≠ []) :
    -1 ≤ LastIndex s sub ∧ LastIndex s sub < s.length := by
  induction s with
  | nil => simp [LastIndex, h]
  | cons c cs ih =>
    simp only [LastIndex, List.length_cons, Nat.cast_add, Nat.cast_one]
    split
    · omega
    · split <;> omega

theorem indexFrom_bounds (sub : Str) (h : sub ≠ []) (pos : Nat) (s : Str) :
    indexFrom sub pos s = -1 ∨
      ((pos : Int) ≤ indexFrom sub pos s ∧ indexFrom sub pos s < pos + s.length) := by
  induction s generalizing pos with
  | nil => simp [indexFrom, h]
  | cons c cs ih =>
    simp only [indexFrom, List.length_cons, Nat.cast_add, Nat.cast_one]
    split
    · right; omega
    · rcases ih (pos + 1) with h1 | h1
      · left; exact h1
      · right
        simp only [Nat.cast_add, Nat.cast_one] at h1
        omega

theorem singleton_isPrefixOf (ch c : Char) (cs : Str) :
    List.isPrefixOf [ch] (c :: cs) = (ch == c) := by
  simp [List.isPrefixOf]

theorem lastIndex_char (ch : Char) (s : Str) :
    ∃ pre name, s = pre ++ name ∧ ch ∉ name ∧ (pre = [] ∨ ∃ p, pre = p ++ [ch]) ∧
      LastIndex s [ch] + 1 = (pre.length : Int) := by
  induction s with
  | nil => exact ⟨[], [], rfl, by simp, Or.inl rfl, by simp [LastIndex]⟩
  | cons c cs ih =>
    obtain ⟨pre, name, e, hn, hp, hl⟩ := ih
    simp only [LastIndex, singleton_isPrefixOf]
    by_cases h0 : 0 ≤ LastIndex cs [ch]
    · rw [if_pos h0]
      have hpre : pre ≠ [] := by
        intro h
        rw [h] at hl
        simp at hl
        omega
      refine ⟨c :: pre, name, by simp [e], hn, Or.inr ?_, by simp; omega⟩
      rcases hp with hp | ⟨p, hp⟩
      · exact absurd hp hpre
      · exact ⟨c :: p, by simp [hp]⟩
    · rw [if_neg h0]
      have hpre : pre = [] := by
        have := (lastIndex_bounds cs [ch] (by simp)).1
        have : (pre.length : Int) = 0 := by omega
        exact List.length_eq_zero.mp (by omega)
      subst hpre
      simp only [List.nil_append] at e
      subst e
      by_cases hc : ch = c
      · subst hc
        exact ⟨[ch], cs, rfl, hn, Or.inr ⟨[], rfl⟩, by simp⟩
      · have : (ch == c) = false := by simpa using hc
        refine ⟨[], c :: cs, rfl, ?_, Or.inl rfl, by simp [this]⟩
        simp only [List.mem_cons, not_or]
        exact ⟨hc, hn⟩

theorem indexFrom_char (ch : Char) (pos : Nat) (s : Str) :
    (ch ∉ s ∧ indexFrom [ch] pos s = -1) ∨
      ∃ a rest, s = a ++ ch :: rest ∧ ch ∉ a ∧
        indexFrom [ch] pos s = ((pos + a.length : Nat) : Int) := by
  induction s generalizing pos with
  | nil => left; simp [indexFrom]
  | cons c cs ih =>
    simp only [indexFrom, singleton_isPrefixOf]
    by_cases hc : ch = c
    · subst hc
      right
      exact ⟨[], cs, rfl, by simp, by simp⟩
    · have : (ch == c) = false := by simpa using hc
      simp only [this, Bool.false_eq_true, if_false]
      rcases ih (pos + 1) with ⟨hn, hi⟩ | ⟨a, rest, e, hn, hi⟩
      · left
        refine ⟨?_, hi⟩
        simp only [List.mem_cons, not_or]
        exact ⟨hc, hn⟩
      · right
        refine ⟨c :: a, rest, by simp [e], ?_, ?_⟩
        · simp only [List.mem_cons, not_or]
          exact ⟨hc, hn⟩
        · rw [hi]
          simp only [List.length_cons]
          congr 1
          omega

theorem goSlice_from (s : Str) (n : Nat) (h : n ≤ s.length) :
    goSlice s (n : Int) (s.length : Int) = some (s.drop n) := by
  have h1 : (0 : Int) ≤ n ∧ (n : Int) ≤ s.length ∧ (s.length : Int) ≤ s.length := by omega
  simp only [goSlice, h1, and_self, if_true, Int.toNat_ofNat]
  rw [List.take_of_length_le]
  simp

theorem goSlice_to (s : Str) (n : Nat) (h : n ≤ s.length) :
    goSlice s 0 (n : Int) = some (s.take n) := by
  have h1 : (0 : Int) ≤ 0 ∧ (0 : Int) ≤ n ∧ (n : Int) ≤ s.length := by omega
  simp only [goSlice, h1, and_self, if_true, Int.toNat_ofNat]
  simp

theorem goSlice_mid (a b c : Str) :
    goSlice (a ++ b ++ c) (a.length : Int) ((a.length + b.length : Nat) : Int) = some b := by
  have h1 : (0 : Int) ≤ a.length ∧ (a.length : Int) ≤ ((a.length + b.length : Nat) : Int) ∧
      ((a.length + b.length : Nat) : Int) ≤ ((a ++ b ++ c).length : Int) := by
    simp only [List.length_append, Nat.cast_add]
    omega
  simp only [goSlice, h1, and_self, if_true, Int.toNat_ofNat]
  simp [List.append_assoc]

theorem baseUrl_abs (p u b : Str) (h : HasPrefix b "http".toList = true) :
    baseUrl p u b = some (p ++ b) := by
  simp only [baseUrl, h, if_true]

theorem baseUrl_rel (p u b : Str) (h : HasPrefix b "http".toList = false) :
    ∃ d name, u = d ++ name ∧ '/' ∉ name ∧ (d = [] ∨ ∃ q, d = q ++ ['/']) ∧
      baseUrl p u b = some (p ++ d ++ b) := by
  obtain ⟨d, name, e, hn, hd, hl⟩ := lastIndex_char '/' u
  refine ⟨d, name, e, hn, hd, ?_⟩
  have e1 : "/".toList = ['/'] := rfl
  have hle : d.length ≤ u.length := by rw [e]; simp
  have ht : u.take d.length = d := by rw [e]; simp
  simp only [baseUrl, h, Bool.false_eq_true, if_false, e1, hl, goSlice_to u d.length hle, ht]

theorem urlFileName_spec (u : Str) :
    ∃ name, urlFileName u = some name ∧ '/' ∉ name ∧ '?' ∉ name ∧
      (('?' ∉ u ∧ ∃ pre, u = pre ++ name ∧ (pre = [] ∨ ∃ q, pre = q ++ ['/'])) ∨
       (∃ pre rest, u = pre ++ name ++ '?' :: rest ∧ '?' ∉ pre ∧
          (pre = [] ∨ ∃ q, pre = q ++ ['/']))) := by
  have e1 : "/".toList = ['/'] := rfl
  have e2 : "?".toList = ['?'] := rfl
  rcases indexFrom_char '?' 0 u with ⟨hq, hi⟩ | ⟨a, rest, e, hq, hi⟩
  · obtain ⟨pre, name, e, hn, hp, hl⟩ := lastIndex_char '/' u
    have hle : pre.length ≤ u.length := by rw [e]; simp
    have hd : u.drop pre.length = name := by rw [e]; simp
    refine ⟨name, ?_, hn, ?_, Or.inl ⟨hq, pre, e, hp⟩⟩
    · simp only [urlFileName, Index, e1, e2, hi, if_true, hl, goSlice_from u pre.length hle, hd]
    · intro hm
      exact hq (by rw [e]; exact List.mem_append_right _ hm)
  · obtain ⟨pre, name, ea, hn, hp, hl⟩ := lastIndex_char '/' a
    have hne : ((0 + a.length : Nat) : Int) ≠ -1 := by omega
    have hle : a.length ≤ u.length := by rw [e]; simp
    have ht : u.take a.length = a := by rw [e]; simp
    have hu : u = pre ++ name ++ '?' :: rest := by rw [e, ea]
    refine ⟨name, ?_, hn, ?_, Or.inr ⟨pre, rest, hu, ?_, hp⟩⟩
    · simp only [urlFileName, Index, e1, e2, hi, hne, if_false, Nat.zero_add,
        goSlice_to u a.length hle, ht, hl]
      have hlen : a.length = pre.length + name.length := by rw [ea]; simp
      rw [hlen, hu]
      exact goSlice_mid pre name ('?' :: rest)
    · intro hm
      exact hq (by rw [ea]; exact List.mem_append_right _ hm)
    · intro hm
      exact hq (by rw [ea]; exact List.mem_append_left _ hm)

/-! ## Lemmas on header maps -/

theorem mapGet_mapSet (h : Header) (k : Str) (v : List Str) (k1 : Str) :
    mapGet (mapSet h k v) k1 = if k = k1 then some v else mapGet h k1 := by
  induction h with
  | nil => simp [mapSet, mapGet]
  | cons e rest ih =>
    obtain ⟨k0, v0⟩ := e
    simp only [mapSet]
    by_cases h0 : k0 = k
    · subst h0
      simp only [if_true, mapGet]
      by_cases h1 : k0 = k1 <;> simp [h1]
    · simp only [h0, if_false, mapGet, ih]
      by_cases h1 : k = k1
      · subst h1
        simp [h0]
      · simp [h1]

theorem get_headerSet (h : Header) (key val k1 : Str) :
    mapGet (Header.Set h key val) k1 =
      if CanonicalMIMEHeaderKey key = k1 then some [val] else mapGet h k1 :=
  mapGet_mapSet h _ _ k1

theorem copyHeaders_get_other (U : Unicode) (w hdr : Header) (k : Str)
    (h : ∀ e ∈ hdr, isStripped U e.1 = false → CanonicalMIMEHeaderKey e.1 ≠ k) :
    mapGet (copyHeaders U w hdr) k = mapGet w k := by
  induction hdr generalizing w with
  | nil => rfl
  | cons e rest ih =>
    obtain ⟨k0, v0⟩ := e
    have hr : ∀ e ∈ rest, isStripped U e.1 = false → CanonicalMIMEHeaderKey e.1 ≠ k :=
      fun e he => h e (List.mem_cons_of_mem _ he)
    simp only [copyHeaders]
    by_cases hs : isStripped U k0 = true
    · simp only [hs, if_true]
      exact ih w hr
    · have hs2 : isStripped U k0 = false := by simpa using hs
      simp only [hs2, Bool.false_eq_true, if_false]
      rw [ih _ hr, get_headerSet, if_neg (h (k0, v0) (List.mem_cons_self _ _) hs2)]

theorem copyHeaders_get_mem (U : Unicode) (w hdr : Header) (key : Str) (values : List Str)
    (hp : hdr.Pairwise fun a b => CanonicalMIMEHeaderKey a.1 ≠ CanonicalMIMEHeaderKey b.1)
    (hm : (key, values) ∈ hdr) (hs : isStripped U key = false) :
    mapGet (copyHeaders U w hdr) (CanonicalMIMEHeaderKey key) =
      some [Join values ",".toList] := by
  induction hdr generalizing w with
  | nil => simp at hm
  | cons e rest ih =>
    obtain ⟨k0, v0⟩ := e
    rw [List.pairwise_cons] at hp
    simp only [List.mem_cons, Prod.mk.injEq] at hm
    rcases hm with ⟨rfl, rfl⟩ | hm
    · simp only [copyHeaders, hs, Bool.false_eq_true, if_false]
      rw [copyHeaders_get_other U _ rest _ (fun e he _ => (hp.1 e he).symm), get_headerSet,
        if_pos rfl]
    · simp only [copyHeaders]
      split
      · exact ih w hp.2 hm
      · exact ih _ hp.2 hm

theorem copyHeaders_get_some (U : Unicode) (w hdr : Header) (k : Str) (v : List Str)
    (h : mapGet (copyHeaders U w hdr) k = some v) :
    mapGet w k = some v ∨
      ∃ e ∈ hdr, isStripped U e.1 = false ∧ CanonicalMIMEHeaderKey e.1 = k := by
  by_cases hx : ∃ e ∈ hdr, isStripped U e.1 = false ∧ CanonicalMIMEHeaderKey e.1 = k
  · exact Or.inr hx
  · left
    rw [← h]
    symm
    apply copyHeaders_get_other
    intro e he hs hk
    exact hx ⟨e, he, hs, hk⟩

set_option maxRecDepth 100000 in
theorem ascii_lower_facts : ∀ n, n < 128 →
    ((Char.ofNat n).toUpper.toLower = (Char.ofNat n).toLower ∧
     (Char.ofNat n).toLower.toLower = (Char.ofNat n).toLower) := by
  decide

theorem valid_ascii (c : Char) (h : validHeaderFieldByte c = true) : c.toNat < 128 := by
  simp only [validHeaderFieldByte, Bool.or_eq_true] at h
  rcases h with h | h
  · simp only [Char.isAlphanum, Char.isAlpha, Char.isUpper, Char.isLower, Char.isDigit,
      Bool.or_eq_true, Bool.and_eq_true, decide_eq_true_eq] at h
    simp only [Char.toNat]
    have : ∀ a b : UInt32, a ≤ b ↔ a.toNat ≤ b.toNat := fun a b => Iff.rfl
    simp only [ge_iff_le, this] at h
    have e1 : (90 : UInt32).toNat = 90 := rfl
    have e2 : (122 : UInt32).toNat = 122 := rfl
    have e3 : (57 : UInt32).toNat = 57 := rfl
    omega
  · have hall : ∀ x ∈ "!#$%&'*+-.^_`|~".toList, x.toNat < 128 := by decide
    exact hall c (by simpa using h)

theorem toLower_canonStep (U : Unicode) (c : Char) (hv : validHeaderFieldByte c = true)
    (b : Bool) : Char.toLower (if b then c.toUpper else c.toLower) = U.ToLower c := by
  have hlt := valid_ascii c hv
  have hc : c = Char.ofNat c.toNat := (Char.ofNat_toNat c).symm
  have hval : c.val < 128 := by
    show c.val.toNat < (128 : UInt32).toNat
    exact hlt
  have hf := ascii_lower_facts c.toNat hlt
  rw [← hc] at hf
  simp only [Unicode.ToLower, hval, if_true]
  cases b
  · simpa using hf.2
  · simpa using hf.1

theorem map_toLower_canonLoop (U : Unicode) (s : Str)
    (hv : s.all validHeaderFieldByte = true) (b : Bool) :
    (canonLoop b s).map Char.toLower = ToLower U s := by
  induction s generalizing b with
  | nil => rfl
  | cons c cs ih =>
    simp only [List.all_cons, Bool.and_eq_true] at hv
    simp only [canonLoop, List.map_cons, ToLower]
    rw [toLower_canonStep U c hv.1 b]
    congr 1
    exact ih hv.2 _

theorem isStripped_of_canon (U : Unicode) (key k0 : Str) (hk : k0 ∈ strippedNames)
    (h : CanonicalMIMEHeaderKey key = k0) : isStripped U key = true := by
  have hlow : ToLower U key = k0.map Char.toLower ∨ key = k0 := by
    simp only [CanonicalMIMEHeaderKey] at h
    by_cases hv : key.all validHeaderFieldByte = true
    · rw [if_pos hv] at h
      left
      rw [← h, map_toLower_canonLoop U key hv]
    · rw [if_neg hv] at h
      exact Or.inr h
  simp only [strippedNames, List.mem_cons, List.mem_singleton, List.not_mem_nil, or_false] at hk
  rcases hlow with hl | hl
  · simp only [isStripped, hl]
    rcases hk with rfl | rfl | rfl | rfl | rfl <;> rfl
  · subst hl
    rcases hk with rfl | rfl | rfl | rfl | rfl <;> rfl

/-! ## The test of line 106, on ASCII names, is the comparison ignoring case -/

set_option maxRecDepth 100000 in
theorem ascii_lower_range : ∀ n, n < 128 →
    ((Char.ofNat n).toLower.toNat < 128 ∧
     ¬ (65 ≤ (Char.ofNat n).toLower.toNat ∧ (Char.ofNat n).toLower.toNat ≤ 90)) := by
  decide

theorem toLower_ascii_rune (U : Unicode) (c : Char) (h : c.toNat < 128) :
    U.ToLower c = c.toLower := by
  have hval : c.val < 128 := by
    show c.val.toNat < (128 : UInt32).toNat
    exact h
  simp only [Unicode.ToLower, hval, if_true]

theorem toLower_ascii (U : Unicode) (s : Str) (h : isASCII s = true) :
    ToLower U s = s.map Char.toLower := by
  induction s with
  | nil => rfl
  | cons c cs ih =>
    simp only [isASCII, List.all_cons, Bool.and_eq_true, decide_eq_true_eq] at h
    have ih2 := ih (by simpa [isASCII] using h.2)
    simp only [ToLower] at ih2
    simp only [ToLower, List.map_cons, toLower_ascii_rune U c h.1, ih2]

theorem foldEqRune_eq (U : Unicode) (a b : Char) (ha : a.toNat < 128) (hb : b.toNat < 128)
    (ua : ¬ (65 ≤ a.toNat ∧ a.toNat ≤ 90)) (ub : ¬ (65 ≤ b.toNat ∧ b.toNat ≤ 90))
    (h : foldEqRune U a b = true) : a = b := by
  by_cases hab : a = b
  · exact hab
  · exfalso
    have hle : ∀ x y : Char, x ≤ y ↔ x.toNat ≤ y.toNat := fun x y => Iff.rfl
    have hA : ('A' : Char).toNat = 65 := rfl
    have hZ : ('Z' : Char).toNat = 90 := rfl
    simp only [foldEqRune, hab, if_false] at h
    by_cases hlt : b < a
    · simp only [hlt, if_true] at h
      have hval : a.val < 128 := by
        show a.val.toNat < (128 : UInt32).toNat
        exact ha
      simp only [hval, if_true, Bool.and_eq_true, decide_eq_true_eq, hle, hA, hZ] at h
      exact ub ⟨h.1.1, h.1.2⟩
    · simp only [hlt, if_false] at h
      have hval : b.val < 128 := by
        show b.val.toNat < (128 : UInt32).toNat
        exact hb
      simp only [hval, if_true, Bool.and_eq_true, decide_eq_true_eq, hle, hA, hZ] at h
      exact ua ⟨h.1.1, h.1.2⟩

theorem equalFold_eq (U : Unicode) (s t : Str)
    (hs : ∀ c ∈ s, c.toNat < 128 ∧ ¬ (65 ≤ c.toNat ∧ c.toNat ≤ 90))
    (ht : ∀ c ∈ t, c.toNat < 128 ∧ ¬ (65 ≤ c.toNat ∧ c.toNat ≤ 90))
    (h : EqualFold U s t = true) : s = t := by
  induction s generalizing t with
  | nil =>
    cases t with
    | nil => rfl
    | cons b t => simp [EqualFold] at h
  | cons a s ih =>
    cases t with
    | nil => simp [EqualFold] at h
    | cons b t =>
      simp only [EqualFold, Bool.and_eq_true] at h
      have ha := hs a (List.mem_cons_self _ _)
      have hb := ht b (List.mem_cons_self _ _)
      rw [foldEqRune_eq U a b ha.1 hb.1 ha.2 hb.2 h.1,
        ih t (fun c hc => hs c (List.mem_cons_of_mem _ hc))
          (fun c hc => ht c (List.mem_cons_of_mem _ hc)) h.2]

theorem lower_range (s : Str) (h : isASCII s = true) :
    ∀ c ∈ s.map Char.toLower, c.toNat < 128 ∧ ¬ (65 ≤ c.toNat ∧ c.toNat ≤ 90) := by
  intro c hc
  obtain ⟨x, hx, rfl⟩ := List.mem_map.mp hc
  have hlt : x.toNat < 128 := by
    simp only [isASCII, List.all_eq_true, decide_eq_true_eq] at h
    exact h x hx
  have := ascii_lower_range x.toNat hlt
  rwa [Char.ofNat_toNat] at this

theorem equalFold_refl (U : Unicode) (s : Str) : EqualFold U s s = true := by
  induction s with
  | nil => rfl
  | cons a s ih => simp [EqualFold, foldEqRune, ih]

/-- On an ASCII name the test of line 106 is the comparison with the five
names that ignores the case of letters: it strips those and no other. -/
theorem isStripped_ascii (U : Unicode) (key : Str) (h : isASCII key = true) :
    isStripped U key = isOneOfFive key := by
  have hr := lower_range key h
  have step : ∀ k0 : Str, isASCII k0 = true →
      EqualFold U (key.map Char.toLower) (k0.map Char.toLower) = sameNameIgnoringCase key k0 := by
    intro k0 h0
    cases hs : sameNameIgnoringCase key k0 with
    | true =>
      simp only [sameNameIgnoringCase, beq_iff_eq] at hs
      rw [hs]
      exact equalFold_refl U _
    | false =>
      cases he : EqualFold U (key.map Char.toLower) (k0.map Char.toLower) with
      | false => rfl
      | true =>
        have := equalFold_eq U _ _ hr (lower_range k0 h0) he
        simp [sameNameIgnoringCase, this] at hs
  have e1 := step "Connection".toList (by decide)
  have e2 := step "Content-Disposition".toList (by decide)
  have e3 := step "Content-Length".toList (by decide)
  have e4 := step "Proxy-Connection".toList (by decide)
  have e5 := step "Transfer-Encoding".toList (by decide)
  have l1 : "Connection".toList.map Char.toLower = "connection".toList := by decide
  have l2 : "Content-Disposition".toList.map Char.toLower = "content-disposition".toList := by
    decide
  have l3 : "Content-Length".toList.map Char.toLower = "content-length".toList := by decide
  have l4 : "Proxy-Connection".toList.map Char.toLower = "proxy-connection".toList := by decide
  have l5 : "Transfer-Encoding".toList.map Char.toLower = "transfer-encoding".toList := by
    decide
  rw [l1] at e1
  rw [l2] at e2
  rw [l3] at e3
  rw [l4] at e4
  rw [l5] at e5
  simp only [isStripped, toLower_ascii U key h, e1, e2, e3, e4, e5, isOneOfFive, strippedNames,
    List.any_cons, List.any_nil, Bool.or_false, Bool.or_assoc]

/-! ## Engine lemmas for greedy repetitions and the file name pattern -/

theorem starLoop_greedy_advance (test : Char → Bool)
    (k : Nat → Str → Slots → Option Slots) (a b : Str) (pos : Nat) (caps m : Slots)
    (ha : ∀ c ∈ a, test c = true)
    (h : starLoop test true k (pos + a.length) b caps = some m) :
    starLoop test true k pos (a ++ b) caps = some m := by
  induction a generalizing pos with
  | nil => simpa using h
  | cons x a ih =>
    have hx : test x = true := ha x (List.mem_cons_self _ _)
    have h2 : starLoop test true k (pos + 1 + a.length) b caps = some m := by
      rw [← h]
      congr 1
      simp only [List.length_cons]
      omega
    have := ih (pos + 1) (fun c hc => ha c (List.mem_cons_of_mem _ hc)) h2
    simp only [List.cons_append, starLoop, if_true, hx, this, List.append_eq]

theorem starLoop_greedy_stop (test : Char → Bool)
    (k : Nat → Str → Slots → Option Slots) (c : Char) (cs : Str) (pos : Nat) (caps : Slots)
    (h : (if test c then starLoop test true k (pos + 1) cs caps else none) = none) :
    starLoop test true k pos (c :: cs) caps = k pos (c :: cs) caps := by
  simp only [starLoop, if_true, h]

theorem starLoop_greedy_none (test : Char → Bool)
    (k : Nat → Str → Slots → Option Slots) (t : Str) (pos : Nat) (caps : Slots)
    (h : ∀ i, i ≤ t.length → k (pos + i) (t.drop i) caps = none) :
    starLoop test true k pos t caps = none := by
  induction t generalizing pos with
  | nil => simpa [starLoop] using h 0 (Nat.le_refl _)
  | cons c cs ih =>
    have h0 : k pos (c :: cs) caps = none := by simpa using h 0 (Nat.zero_le _)
    have hr : starLoop test true k (pos + 1) cs caps = none := by
      apply ih
      intro i hi
      have := h (i + 1) (by simp only [List.length_cons]; omega)
      simpa [Nat.add_assoc, Nat.add_comm 1] using this
    simp only [starLoop, if_true, hr, h0, ite_self]

theorem starLoop_sound (test : Char → Bool) (g : Bool)
    (k : Nat → Str → Slots → Option Slots) (t : Str) (pos : Nat) (caps m : Slots)
    (h : starLoop test g k pos t caps = some m) :
    ∃ i, i ≤ t.length ∧ k (pos + i) (t.drop i) caps = some m := by
  induction t generalizing pos with
  | nil => exact ⟨0, Nat.le_refl _, by simpa [starLoop] using h⟩
  | cons c cs ih =>
    have step : starLoop test g k (pos + 1) cs caps = some m →
        ∃ i, i ≤ (c :: cs).length ∧ k (pos + i) ((c :: cs).drop i) caps = some m := by
      intro h1
      obtain ⟨i, hi, hk⟩ := ih (pos + 1) h1
      refine ⟨i + 1, by simp only [List.length_cons]; omega, ?_⟩
      rw [← hk]
      simp [Nat.add_assoc, Nat.add_comm 1]
    have here : k pos (c :: cs) caps = some m →
        ∃ i, i ≤ (c :: cs).length ∧ k (pos + i) ((c :: cs).drop i) caps = some m :=
      fun h1 => ⟨0, Nat.zero_le _, by simpa using h1⟩
    simp only [starLoop] at h
    cases g with
    | true =>
      simp only [if_true] at h
      by_cases ht : test c = true
      · simp only [ht, if_true] at h
        cases hs : starLoop test true k (pos + 1) cs caps with
        | none => rw [hs] at h; exact here h
        | some m1 =>
          rw [hs] at h
          simp only [Option.some.injEq] at h
          subst h
          exact step hs
      · simp only [ht, if_false] at h
        exact here h
    | false =>
      simp only [Bool.false_eq_true, if_false] at h
      cases hk : k pos (c :: cs) caps with
      | some m1 =>
        rw [hk] at h
        simp only [Option.some.injEq] at h
        subst h
        exact here hk
      | none =>
        rw [hk] at h
        by_cases ht : test c = true
        · simp only [ht, if_true] at h
          exact step h
        · simp [ht] at h

theorem run_fnEnd (pos : Nat) (post : Str) (caps : Slots) (hn : '\n' ∉ post) :
    run [Op.star CharClass.dot true, Op.endText] pos post caps =
      some (caps.set 1 (some (pos + post.length))) := by
  have h := starLoop_greedy_advance CharClass.dot.test (run [Op.endText]) post [] pos caps
    (caps.set 1 (some (pos + post.length)))
    (fun c hc => by
      have : c ≠ '\n' := fun e => hn (e ▸ hc)
      simp [CharClass.test, this])
    (by simp [starLoop, run])
  rw [List.append_nil] at h
  exact h

theorem run_fnQuote (pos : Nat) (post : Str) (caps : Slots) (hn : '\n' ∉ post) :
    run [Op.capture 3, Op.rune (CharClass.lit '"'), Op.star CharClass.dot true, Op.endText]
        pos ('"' :: post) caps =
      some ((caps.set 3 (some pos)).set 1 (some (pos + 1 + post.length))) := by
  have e : run [Op.capture 3, Op.rune (CharClass.lit '"'), Op.star CharClass.dot true,
      Op.endText] pos ('"' :: post) caps =
      run [Op.star CharClass.dot true, Op.endText] (pos + 1) post (caps.set 3 (some pos)) := by
    simp [run, CharClass.test]
  rw [e, run_fnEnd _ _ _ hn]

theorem run_fnQuote_sound (pos : Nat) (t : Str) (caps m : Slots)
    (h : run [Op.capture 3, Op.rune (CharClass.lit '"'), Op.star CharClass.dot true,
      Op.endText] pos t caps = some m) : '"' ∈ t := by
  cases t with
  | nil => simp [run] at h
  | cons c cs =>
    by_cases hc : c = '"'
    · simp [hc]
    · simp [run, CharClass.test, hc] at h

theorem run_fnTail (pos : Nat) (x : Char) (X post : Str) (caps : Slots)
    (hq : '"' ∉ x :: X) (hn : '\n' ∉ post) :
    run fnTail pos (x :: X ++ '"' :: post) caps =
      some (((caps.set 2 (some pos)).set 3 (some (pos + (x :: X).length))).set 1
        (some (pos + (x :: X).length + 1 + post.length))) := by
  simp only [List.mem_cons, not_or] at hq
  have hx : (CharClass.notCh '"').test x = true := by
    have : x ≠ '"' := fun e => hq.1 e.symm
    simp [CharClass.test, this]
  have e : run fnTail pos (x :: X ++ '"' :: post) caps =
      starLoop (CharClass.notCh '"').test true
        (run [Op.capture 3, Op.rune (CharClass.lit '"'), Op.star CharClass.dot true,
          Op.endText]) (pos + 1) (X ++ '"' :: post) (caps.set 2 (some pos)) := by
    simp only [fnTail, run, List.cons_append, hx, if_true]
  rw [e]
  apply starLoop_greedy_advance
  · intro c hc
    have : c ≠ '"' := fun e => hq.2 (e ▸ hc)
    simp [CharClass.test, this]
  · rw [starLoop_greedy_stop _ _ _ _ _ _ (by simp [CharClass.test]), run_fnQuote _ _ _ hn]
    simp only [List.length_cons]
    congr 4 <;> omega

theorem run_fnTail_sound (pos : Nat) (t : Str) (caps m : Slots)
    (h : run fnTail pos t caps = some m) : '"' ∈ t := by
  cases t with
  | nil => simp [fnTail, run] at h
  | cons c cs =>
    simp only [fnTail, run] at h
    by_cases hc : (CharClass.notCh '"').test c = true
    · simp only [hc, if_true] at h
      obtain ⟨i, _, hk⟩ := starLoop_sound _ _ _ _ _ _ _ h
      exact List.mem_cons_of_mem _ (List.mem_of_mem_drop (run_fnQuote_sound _ _ _ _ hk))
    · simp [hc] at h

theorem run_fnBody_sound (pos : Nat) (t : Str) (caps m : Slots)
    (h : run (lits fnTag ++ fnTail) pos t caps = some m) :
    fnTag.isPrefixOf t = true ∧ 2 ≤ t.count '"' := by
  rw [run_lits] at h
  by_cases hp : fnTag.isPrefixOf t = true
  · rw [if_pos hp] at h
    refine ⟨hp, ?_⟩
    have hm := run_fnTail_sound _ _ _ _ h
    rw [isPrefixOf_split hp, List.count_append]
    have h1 : fnTag.count '"' = 1 := by decide
    have h2 : 0 < (t.drop fnTag.length).count '"' := List.count_pos_iff.mpr hm
    omega
  · simp [hp] at h

theorem run_fnBody (pos : Nat) (x : Char) (X post : Str) (caps : Slots)
    (hq : '"' ∉ x :: X) (hn : '\n' ∉ post) :
    run (lits fnTag ++ fnTail) pos (fnTag ++ (x :: X ++ '"' :: post)) caps =
      some (((caps.set 2 (some (pos + 10))).set 3 (some (pos + 10 + (x :: X).length))).set 1
        (some (pos + 10 + (x :: X).length + 1 + post.length))) := by
  rw [run_lits, if_pos (isPrefixOf_append _ _), List.drop_left, run_fnTail _ _ _ _ _ hq hn]
  rfl

theorem run_fnBody_later (pos i : Nat) (x : Char) (X post : Str) (caps : Slots)
    (hlast : ¬ fnTag <:+: x :: X ++ '"' :: post) (hi : 1 ≤ i) :
    run (lits fnTag ++ fnTail) pos ((fnTag ++ (x :: X ++ '"' :: post)).drop i) caps = none := by
  cases h : run (lits fnTag ++ fnTail) pos ((fnTag ++ (x :: X ++ '"' :: post)).drop i) caps with
  | none => rfl
  | some m =>
    exfalso
    obtain ⟨hp, _⟩ := run_fnBody_sound _ _ _ _ h
    have h10 : fnTag.length = 10 := rfl
    rw [List.drop_append_eq_append_drop, h10] at hp
    by_cases hlt : i < 10
    · have e : i - 10 = 0 := by omega
      rw [e, List.drop_zero] at hp
      have hf : fnTag.isPrefixOf (fnTag.drop i ++ (x :: X ++ '"' :: post)) = false := by
        interval_cases i <;> rfl
      rw [hf] at hp
      exact absurd hp (by decide)
    · have e : fnTag.drop i = [] := List.drop_of_length_le (by omega)
      rw [e, List.nil_append] at hp
      exact hlast ((List.isPrefixOf_iff_prefix.mp hp).isInfix.trans
        (List.drop_suffix _ _).isInfix)

theorem run_reFilename (pre : Str) (x : Char) (X post : Str) (caps : Slots)
    (hp : '\n' ∉ pre) (hq : '"' ∉ x :: X) (hn : '\n' ∉ post)
    (hlast : ¬ fnTag <:+: x :: X ++ '"' :: post) :
    run reFilename.prog 0 (pre ++ (fnTag ++ (x :: X ++ '"' :: post))) caps =
      some (((caps.set 2 (some (pre.length + 10))).set 3
        (some (pre.length + 10 + (x :: X).length))).set 1
        (some (pre.length + 10 + (x :: X).length + 1 + post.length))) := by
  have e : run reFilename.prog 0 (pre ++ (fnTag ++ (x :: X ++ '"' :: post))) caps =
      starLoop CharClass.dot.test true (run (lits fnTag ++ fnTail)) 0
        (pre ++ (fnTag ++ (x :: X ++ '"' :: post))) caps := rfl
  rw [e]
  apply starLoop_greedy_advance
  · intro c hc
    have : c ≠ '\n' := fun e => hp (e ▸ hc)
    simp [CharClass.test, this]
  · have ef : fnTag ++ (x :: X ++ '"' :: post) =
        'f' :: ("ilename=\"".toList ++ (x :: X ++ '"' :: post)) := rfl
    have hnone : starLoop CharClass.dot.test true (run (lits fnTag ++ fnTail))
        (0 + pre.length + 1) ("ilename=\"".toList ++ (x :: X ++ '"' :: post)) caps = none := by
      apply starLoop_greedy_none
      intro i _
      have := run_fnBody_later (0 + pre.length + 1 + i) (i + 1) x X post caps hlast (by omega)
      rw [ef, List.drop_succ_cons] at this
      exact this
    have hb := run_fnBody (0 + pre.length) x X post caps hq hn
    rw [ef] at hb ⊢
    rw [starLoop_greedy_stop _ _ _ _ _ _ (by rw [hnone]; simp), hb]
    simp only [Nat.zero_add]

theorem search_unfold (re : Regexp) (pos : Nat) (s : Str) :
    search re pos s =
      match run re.prog pos s
          ((List.replicate (2 * (re.numSubexp + 1)) none).set 0 (some pos)) with
      | some m => some m
      | none => match s with
        | [] => none
        | _ :: cs => search re (pos + 1) cs := by
  cases s with
  | nil => simp only [search]; split <;> simp_all
  | cons c cs => rfl

/-- The offsets of the match of the file name pattern in a text of the
shape `pre ++ filename="X" ++ post`. -/
theorem doExecute_reFilename (pre : Str) (x : Char) (X post : Str) (n : Nat)
    (hp : '\n' ∉ pre) (hq : '"' ∉ x :: X) (hn : '\n' ∉ post)
    (hlast : ¬ fnTag <:+: x :: X ++ '"' :: post) :
    reFilename.doExecute (pre ++ (fnTag ++ (x :: X ++ '"' :: post))) 0 n =
      some (List.take n [some 0, some (pre.length + 10 + (x :: X).length + 1 + post.length),
        some (pre.length + 10), some (pre.length + 10 + (x :: X).length)]) := by
  simp only [Regexp.doExecute, List.drop_zero, search_unfold,
    run_reFilename pre x X post _ hp hq hn hlast, Option.map_some']
  rfl

theorem expand_dollar1 (U : Unicode) (src dst : Str) (a : Slots) (ha : a.length = 4) :
    reFilename.expand U dst "$1".toList src a = dst ++ group src a 1 := by
  have e1 : "$1".toList = ['$', '1'] := rfl
  have e2 : cut '$' ['$', '1'] = some ([], ['1']) := rfl
  have e3 : extract U ['1'] = some (['1'], some 1, []) := rfl
  have e4 : cut '$' ([] : Str) = none := rfl
  simp only [Regexp.expand, e1, List.length_cons, List.length_nil, expandLoop, e2, e3, e4, ha]
  simp

theorem matchString_reFilename (pre : Str) (x : Char) (X post : Str)
    (hp : '\n' ∉ pre) (hq : '"' ∉ x :: X) (hn : '\n' ∉ post)
    (hlast : ¬ fnTag <:+: x :: X ++ '"' :: post) :
    reFilename.MatchString (pre ++ (fnTag ++ (x :: X ++ '"' :: post))) = true := by
  simp only [Regexp.MatchString, doExecute_reFilename pre x X post 0 hp hq hn hlast]
  rfl

theorem replaceAllString_reFilename (U : Unicode) (pre : Str) (x : Char) (X post : Str)
    (hp : '\n' ∉ pre) (hq : '"' ∉ x :: X) (hn : '\n' ∉ post)
    (hlast : ¬ fnTag <:+: x :: X ++ '"' :: post) :
    reFilename.ReplaceAllString U (pre ++ (fnTag ++ (x :: X ++ '"' :: post))) "$1".toList
      = x :: X := by
  have hd : '$' ∈ "$1".toList := by decide
  have hlen : (pre ++ (fnTag ++ (x :: X ++ '"' :: post))).length
      = pre.length + 10 + (x :: X).length + 1 + post.length := by
    have h10 : fnTag.length = 10 := rfl
    simp only [List.length_append, List.length_cons, h10]
    omega
  have hg : group (pre ++ (fnTag ++ (x :: X ++ '"' :: post)))
      [some 0, some (pre.length + 10 + (x :: X).length + 1 + post.length),
        some (pre.length + 10), some (pre.length + 10 + (x :: X).length)] 1 = x :: X := by
    have := slice_mid (pre ++ fnTag) (x :: X) ('"' :: post)
    have h10 : fnTag.length = 10 := rfl
    simp only [List.length_append, h10] at this
    simp only [group, List.get?, Nat.mul_one]
    have e : pre ++ (fnTag ++ (x :: X ++ '"' :: post))
        = pre ++ fnTag ++ (x :: X) ++ '"' :: post := by simp [List.append_assoc]
    rw [e]
    exact this
  have hend : reFilename.doExecute (pre ++ (fnTag ++ (x :: X ++ '"' :: post)))
      (pre.length + 10 + (x :: X).length + 1 + post.length) 4 = none := by
    rw [← hlen]
    simp only [Regexp.doExecute, List.drop_length, search, Option.map_eq_none']
    simp [reFilename, run, hlen]
  simp only [Regexp.ReplaceAllString, hd, if_true]
  rw [show (pre ++ (fnTag ++ (x :: X ++ '"' :: post))).length + 2
        = ((pre ++ (fnTag ++ (x :: X ++ '"' :: post))).length + 0) + 1 + 1 from rfl]
  simp only [replaceAllLoop, doExecute_reFilename pre x X post _ hp hq hn hlast, Nat.zero_le,
    if_true]
  simp only [reFilename, Nat.mul_one, List.take, List.get?, Option.join, Option.some_bind,
    id_eq, Option.getD_some, or_true, if_true]
  have hs0 : slice (pre ++ (fnTag ++ (x :: X ++ '"' :: post))) 0 0 = [] := by simp [slice]
  have hex := expand_dollar1 U (pre ++ (fnTag ++ (x :: X ++ '"' :: post))) []
    [some 0, some (pre.length + 10 + (x :: X).length + 1 + post.length),
      some (pre.length + 10), some (pre.length + 10 + (x :: X).length)] rfl
  simp only [reFilename] at hex
  simp only [hs0, List.append_nil, hex, hg, List.nil_append]
  have c1 : 0 < (pre ++ (fnTag ++ (x :: X ++ '"' :: post))).length := by rw [hlen]; omega
  have c2 : ¬ (pre.length + 10 + (x :: X).length + 1 + post.length < 0 + 1) := by omega
  have c3 : pre.length + 10 + (x :: X).length + 1 + post.length
      ≤ (pre ++ (fnTag ++ (x :: X ++ '"' :: post))).length := by rw [hlen]
  simp only [c1, c2, c3, if_true, if_false]
  have hend2 := hend
  simp only [reFilename, Nat.mul_one] at hend2
  simp only [hend2]
  rw [← hlen]
  simp

/-! ## The handler: its paths -/

theorem baseUrl_total (p u b : Str) : ∃ base, baseUrl p u b = some base := by
  cases h : HasPrefix b "http".toList with
  | true => exact ⟨_, baseUrl_abs p u b h⟩
  | false =>
    obtain ⟨d, _, _, _, _, hb⟩ := baseUrl_rel p u b h
    exact ⟨_, hb⟩

theorem fileName_total (U : Unicode) (hdr : Header) (u : Str) :
    ∃ name, fileName U hdr u = some name := by
  simp only [fileName]
  split
  · obtain ⟨name, h, _⟩ := urlFileName_spec u
    exact ⟨name, h⟩
  · exact ⟨_, rfl⟩

theorem replaceAllString_ne_nil (U : Unicode) (mpd base g c r : Str)
    (hs : findSpan mpd = some (g, c, r)) :
    reBaseURL.ReplaceAllString U mpd (newTag base) ≠ [] := by
  have h := replaceAllString_first U mpd (base ++ closeTag) g c r hs
  have e : openTag ++ (base ++ closeTag) = newTag base := by
    simp [newTag, openTag, closeTag]
  rw [e] at h
  intro h0
  rw [h0] at h
  have := List.prefix_nil.mp h
  simp [openTag] at this

theorem relay_span (U : Unicode) (p : Str) (resp : Upstream) (mpd g c r : Str)
    (hb : resp.body = some mpd) (hs : findSpan mpd = some (g, c, r)) :
    ∃ base name, baseUrl p resp.finalURL c = some base ∧
      fileName U resp.header resp.finalURL = some name ∧
      relay U p resp =
        if validStatus resp.statusCode then some
          { status := resp.statusCode
            header := successHeader U resp.header name
              (reBaseURL.ReplaceAllString U mpd (newTag base))
            body := reBaseURL.ReplaceAllString U mpd (newTag base) }
        else none := by
  obtain ⟨base, hbase⟩ := baseUrl_total p resp.finalURL c
  obtain ⟨name, hname⟩ := fileName_total U resp.header resp.finalURL
  refine ⟨base, name, hbase, hname, ?_⟩
  have hne := replaceAllString_ne_nil U mpd base g c r hs
  simp only [relay, hb, findStringSubmatch_reBaseURL, hs, List.length_cons, List.length_nil,
    List.get?, hbase, hne, hname, if_false, successHeader]
  simp

theorem relay_ok (U : Unicode) (p : Str) (resp : Upstream) (mpd g c r : Str)
    (hb : resp.body = some mpd) (hs : findSpan mpd = some (g, c, r))
    (hcode : validStatus resp.statusCode = true) :
    ∃ base name, baseUrl p resp.finalURL c = some base ∧
      fileName U resp.header resp.finalURL = some name ∧
      relay U p resp = some
        { status := resp.statusCode
          header := successHeader U resp.header name
            (reBaseURL.ReplaceAllString U mpd (newTag base))
          body := reBaseURL.ReplaceAllString U mpd (newTag base) } := by
  obtain ⟨base, name, h1, h2, h3⟩ := relay_span U p resp mpd g c r hb hs
  exact ⟨base, name, h1, h2, by rw [h3, if_pos hcode]⟩

theorem relay_noSpan (U : Unicode) (p : Str) (resp : Upstream) (mpd : Str)
    (hb : resp.body = some mpd) (hs : findSpan mpd = none) :
    relay U p resp = some (httpError "MPD 中未找到 BaseURL".toList 500) := by
  simp only [relay, hb, findStringSubmatch_reBaseURL, hs]
  simp

theorem handelMain_relayed (U : Unicode) (env : Env) (req : Request) (resp : Upstream)
    (mpd : Str) (h : Relayed env req resp mpd) :
    handelMain U env req =
      (relay U (valuesGet req.query "proxyurl".toList) resp).map fun r =>
        ⟨r, [valuesGet req.query "mpdurl".toList]⟩ := by
  simp only [handelMain, h.hasQuery, h.hasMpdUrl, h.hasProxyUrl, h.fetched, if_false,
    or_self]

theorem handelMain_ok (U : Unicode) (env : Env) (req : Request) (resp : Upstream)
    (mpd g c r : Str) (h : Relayed env req resp mpd) (hs : findSpan mpd = some (g, c, r))
    (hcode : validStatus resp.statusCode = true) :
    ∃ base name, baseUrl (valuesGet req.query "proxyurl".toList) resp.finalURL c = some base ∧
      fileName U resp.header resp.finalURL = some name ∧
      handelMain U env req = some
        ⟨{ status := resp.statusCode
           header := successHeader U resp.header name
             (reBaseURL.ReplaceAllString U mpd (newTag base))
           body := reBaseURL.ReplaceAllString U mpd (newTag base) },
         [valuesGet req.query "mpdurl".toList]⟩ := by
  obtain ⟨base, name, hb, hn, hr⟩ := relay_ok U (valuesGet req.query "proxyurl".toList)
    resp mpd g c r h.bodyRead hs hcode
  exact ⟨base, name, hb, hn, by rw [handelMain_relayed U env req resp mpd h, hr]; rfl⟩

theorem successHeader_get_disposition (U : Unicode) (hdr : Header) (name body : Str) :
    mapGet (successHeader U hdr name body) "Content-Disposition".toList =
      some ["attachment; filename*=UTF-8''".toList ++ name] := by
  simp only [successHeader, get_headerSet]
  rfl

theorem successHeader_get_length (U : Unicode) (hdr : Header) (name body : Str) :
    mapGet (successHeader U hdr name body) "Content-Length".toList =
      some [(Nat.repr (byteLen body)).toList] := by
  simp only [successHeader, get_headerSet]
  rfl

theorem successHeader_get_connection (U : Unicode) (hdr : Header) (name body : Str) :
    mapGet (successHeader U hdr name body) "Connection".toList = some ["close".toList] := by
  simp only [successHeader, get_headerSet]
  rfl

theorem successHeader_get_other (U : Unicode) (hdr : Header) (name body k : Str)
    (h1 : k ≠ "Content-Disposition".toList) (h2 : k ≠ "Content-Length".toList)
    (h3 : k ≠ "Connection".toList) :
    mapGet (successHeader U hdr name body) k = mapGet (copyHeaders U [] hdr) k := by
  have e1 : CanonicalMIMEHeaderKey "Content-Disposition".toList = "Content-Disposition".toList :=
    rfl
  have e2 : CanonicalMIMEHeaderKey "Content-Length".toList = "Content-Length".toList := rfl
  have e3 : CanonicalMIMEHeaderKey "Connection".toList = "Connection".toList := rfl
  simp only [successHeader, get_headerSet, e1, e2, e3]
  rw [if_neg (fun e => h3 e.symm), if_neg (fun e => h2 e.symm), if_neg (fun e => h1 e.symm)]

theorem copyHeaders_stripped_absent (U : Unicode) (hdr : Header) (k0 : Str)
    (hk : k0 ∈ strippedNames) : mapGet (copyHeaders U [] hdr) k0 = none := by
  cases h : mapGet (copyHeaders U [] hdr) k0 with
  | none => rfl
  | some v =>
    exfalso
    rcases copyHeaders_get_some U [] hdr k0 v h with h1 | ⟨e, _, hs, hc⟩
    · simp [mapGet] at h1
    · rw [isStripped_of_canon U e.1 k0 hk hc] at hs
      exact absurd hs (by decide)

theorem dispositionFileName_lowered (U : Unicode) (hdr : Header) (pre X post : Str)
    (hv : ToLower U (Header.Get hdr "Content-Disposition".toList)
      = pre ++ fnTag ++ X ++ '"' :: post)
    (hX : X ≠ []) (hq : '"' ∉ X) (hp : '\n' ∉ pre) (hn : '\n' ∉ post)
    (hlast : ¬ fnTag <:+: X ++ '"' :: post) :
    dispositionFileName U hdr = X := by
  cases X with
  | nil => exact absurd rfl hX
  | cons x X =>
    have e : pre ++ fnTag ++ (x :: X) ++ '"' :: post
        = pre ++ (fnTag ++ (x :: X ++ '"' :: post)) := by simp [List.append_assoc]
    rw [e] at hv
    have hne : pre ++ (fnTag ++ (x :: X ++ '"' :: post)) ≠ [] := by
      intro h0
      have := congrArg List.length h0
      simp at this
    simp only [dispositionFileName, hv, ne_eq, hne, not_false_eq_true, if_true,
      matchString_reFilename pre x X post hp hq hn hlast,
      replaceAllString_reFilename U pre x X post hp hq hn hlast]

theorem dir_unique_le (d n d1 n1 : Str) (e : d ++ n = d1 ++ n1) (hn : '/' ∉ n)
    (hd1 : d1 = [] ∨ ∃ q, d1 = q ++ ['/']) : d1.length ≤ d.length := by
  rcases List.append_eq_append_iff.mp e with ⟨a, h1, h2⟩ | ⟨c, h1, _⟩
  · cases a with
    | nil => simp [h1]
    | cons y a =>
      exfalso
      rcases hd1 with h0 | ⟨q, hq⟩
      · rw [h0] at h1
        have := congrArg List.length h1
        simp only [List.length_nil, List.length_append, List.length_cons] at this
        omega
      · have hl : (d ++ y :: a).getLast? = some '/' := by rw [← h1, hq]; simp
        rw [List.getLast?_append_of_ne_nil _ (by simp)] at hl
        exact hn (by rw [h2]; exact List.mem_append_left _ (List.mem_of_getLast?_eq_some hl))
  · rw [h1]
    simp

theorem dir_unique (d n d1 n1 : Str) (e : d ++ n = d1 ++ n1) (hn : '/' ∉ n) (hn1 : '/' ∉ n1)
    (hd : d = [] ∨ ∃ q, d = q ++ ['/']) (hd1 : d1 = [] ∨ ∃ q, d1 = q ++ ['/']) : d = d1 := by
  have h1 := dir_unique_le d n d1 n1 e hn hd1
  have h2 := dir_unique_le d1 n1 d n e.symm hn1 hd
  have hl : d.length = d1.length := by omega
  exact (List.append_inj e hl).1

theorem captured_findSpan (mpd b : Str)
    (h : (reBaseURL.FindStringSubmatch mpd).get? 1 = some b) :
    ∃ g r, findSpan mpd = some (g, b, r) := by
  rw [findStringSubmatch_reBaseURL] at h
  cases hs : findSpan mpd with
  | none => rw [hs] at h; simp at h
  | some q =>
    obtain ⟨g, c, r⟩ := q
    rw [hs] at h
    simp only [List.get?, Option.some.injEq] at h
    subst h
    exact ⟨g, r, rfl⟩

theorem hasSpan_findSpan (mpd : Str) (h : HasSpan mpd) :
    ∃ g c r, findSpan mpd = some (g, c, r) := by
  have := (findSpan_isSome_iff mpd).mpr h
  cases hs : findSpan mpd with
  | none => rw [hs] at this; exact absurd this (by decide)
  | some q => exact ⟨q.1, q.2.1, q.2.2, rfl⟩

theorem rewrittenAll_infix (tag s out : Str) (h : RewrittenAll tag s out) (hs : HasSpan s) :
    tag <:+: out := by
  cases h with
  | done _ hn => exact absurd hs hn
  | step _ g c r out1 _ _ => exact ⟨g, out1, rfl⟩

/-- The rewritten manifest holds the new tag whenever the tag has no `$`. -/
theorem rewrite_holds_tag (U : Unicode) (mpd base : Str) (hs : HasSpan mpd)
    (hd : '$' ∉ base) :
    newTag base <:+: reBaseURL.ReplaceAllString U mpd (newTag base) := by
  have hd2 : '$' ∉ newTag base := by
    simp only [newTag, List.mem_append, not_or]
    exact ⟨⟨by decide, hd⟩, by decide⟩
  exact rewrittenAll_infix _ _ _ (replaceAllString_noDollar U mpd (newTag base) hd2) hs

/-! ## The leftmost-first match is unique, and so is the rewritten text -/

theorem firstMatch_unique (s g c r g1 c1 r1 : Str) (h : FirstMatch s g c r)
    (h1 : FirstMatch s g1 c1 r1) : g = g1 ∧ c = c1 ∧ r = r1 := by
  have hl : g.length = g1.length := by
    have a := h.leftmost g1 c1 r1 h1.split h1.oneLine
    have b := h1.leftmost g c r h.split h.oneLine
    omega
  have e : g ++ (openTag ++ (c ++ closeTag ++ r)) = g1 ++ (openTag ++ (c1 ++ closeTag ++ r1)) := by
    have := h.split.symm.trans h1.split
    simpa [List.append_assoc] using this
  obtain ⟨eg, et⟩ := List.append_inj e hl
  have et2 : c ++ closeTag ++ r = c1 ++ closeTag ++ r1 := List.append_cancel_left et
  have key : c ++ closeTag = c1 ++ closeTag := by
    rcases List.append_eq_append_iff.mp et2 with ⟨a, ha, _⟩ | ⟨a, ha, _⟩
    · have := h1.shortest c a ha
      rw [this, List.append_nil] at ha
      exact ha.symm
    · have := h.shortest c1 a ha
      rw [this, List.append_nil] at ha
      exact ha
  have ec : c = c1 := List.append_cancel_right key
  refine ⟨eg, ec, ?_⟩
  rw [key] at et2
  exact List.append_cancel_left et2

theorem rewrittenAll_unique (tag s o1 o2 : Str) (h1 : RewrittenAll tag s o1)
    (h2 : RewrittenAll tag s o2) : o1 = o2 := by
  induction h1 generalizing o2 with
  | done s hn =>
    cases h2 with
    | done _ _ => rfl
    | step _ g c r out fm _ => exact absurd ⟨g, c, r, fm.split, fm.oneLine⟩ hn
  | step s g c r out fm _ ih =>
    cases h2 with
    | done _ hn => exact absurd ⟨g, c, r, fm.split, fm.oneLine⟩ hn
    | step _ g1 c1 r1 out1 fm1 hr1 =>
      obtain ⟨rfl, rfl, rfl⟩ := firstMatch_unique s g c r g1 c1 r1 fm fm1
      rw [ih out1 hr1]

/-! ## The bounds on the number of turns of the two loops are enough -/

theorem cut_length (sep : Char) (t before after : Str) (h : cut sep t = some (before, after)) :
    after.length < t.length := by
  induction t generalizing before after with
  | nil => simp [cut] at h
  | cons c cs ih =>
    simp only [cut] at h
    by_cases hc : c = sep
    · simp only [hc, if_true, Option.some.injEq, Prod.mk.injEq] at h
      rw [← h.2]
      simp
    · simp only [hc, if_false] at h
      cases hr : cut sep cs with
      | none => simp [hr] at h
      | some p =>
        obtain ⟨b0, a0⟩ := p
        simp only [hr, Option.map_some', Option.some.injEq, Prod.mk.injEq] at h
        have := ih b0 a0 hr
        rw [← h.2]
        simp only [List.length_cons]
        omega

theorem extract_length (U : Unicode) (str name rest : Str) (num : Option Nat)
    (h : extract U str = some (name, num, rest)) : rest.length ≤ str.length := by
  cases str with
  | nil => simp [extract] at h
  | cons c cs =>
    have hle : (if (c == '\x7b') = true then cs else c :: cs).length ≤ (c :: cs).length := by
      split <;> simp
    generalize hs : (if (c == '\x7b') = true then cs else c :: cs) = str1 at hle
    have h2 : extract U (c :: cs) =
        if (str1.takeWhile (isNameRune U)).length = 0 then none
        else if ((c == '\x7b') &&
            ((str1.drop (str1.takeWhile (isNameRune U)).length).head? != some '\x7d')) = true
          then none
        else some (str1.takeWhile (isNameRune U), parseNum (str1.takeWhile (isNameRune U)),
          str1.drop (if (c == '\x7b') = true then (str1.takeWhile (isNameRune U)).length + 1
            else (str1.takeWhile (isNameRune U)).length)) := by
      rw [← hs]
      rfl
    rw [h2] at h
    split at h
    · exact absurd h (by simp)
    · split at h
      · exact absurd h (by simp)
      · simp only [Option.some.injEq, Prod.mk.injEq] at h
        rw [← h.2.2, List.length_drop]
        omega

/-- Any number of turns above the length of the template gives `expandLoop`
the same result: the bound `Regexp.expand` passes is never used up. -/
theorem expandLoop_fuel (U : Unicode) (re : Regexp) (src : Str) (a : Slots)
    (fuel1 fuel2 : Nat) (dst t : Str) (h1 : t.length < fuel1) (h2 : t.length < fuel2) :
    expandLoop U re src a fuel1 dst t = expandLoop U re src a fuel2 dst t := by
  induction fuel1 generalizing fuel2 dst t with
  | zero => omega
  | succ f1 ih =>
    cases fuel2 with
    | zero => omega
    | succ f2 =>
      simp only [expandLoop]
      cases hc : cut '$' t with
      | none => rfl
      | some p =>
        obtain ⟨before, after⟩ := p
        have hlt := cut_length '$' t before after hc
        simp only
        split
        · rename_i rest
          exact ih f2 _ rest (by simp only [List.length_cons] at hlt; omega)
            (by simp only [List.length_cons] at hlt; omega)
        · split
          · exact ih f2 _ after (by omega) (by omega)
          · rename_i name num rest he
            have := extract_length U after _ rest _ he
            exact ih f2 _ rest (by omega) (by omega)
          · rename_i name rest he
            have := extract_length U after _ rest _ he
            exact ih f2 _ rest (by omega) (by omega)

/-- Any number of turns above the length of the text still to be searched
gives the replacement loop of `<BaseURL>(.*?)</BaseURL>` the same result:
the bound `Regexp.ReplaceAllString` passes is never used up. -/
theorem replaceAllLoop_fuel (m : Nat) (repl : Str → Slots → Str) (fuel1 fuel2 : Nat)
    (done rest buf : Str) (h1 : rest.length < fuel1) (h2 : rest.length < fuel2) :
    replaceAllLoop reBaseURL (done ++ rest) (m + 2) repl fuel1 done.length done.length buf
      = replaceAllLoop reBaseURL (done ++ rest) (m + 2) repl fuel2 done.length
          done.length buf := by
  induction fuel1 generalizing fuel2 done rest buf with
  | zero => omega
  | succ f1 ih =>
    cases fuel2 with
    | zero => omega
    | succ f2 =>
      cases hs : findSpan rest with
      | none => rw [replaceAllLoop_none _ _ _ _ _ _ hs, replaceAllLoop_none _ _ _ _ _ _ hs]
      | some q =>
        obtain ⟨g, c, r⟩ := q
        have fm := findSpan_firstMatch hs
        rw [replaceAllLoop_some m repl f1 done rest buf g c r hs,
          replaceAllLoop_some m repl f2 done rest buf g c r hs]
        have e : done ++ rest = (done ++ g ++ openTag ++ c ++ closeTag) ++ r := by
          rw [fm.split]
          simp [List.append_assoc]
        have hl : r.length + 19 ≤ rest.length := by
          have := congrArg List.length fm.split
          have h9 : openTag.length = 9 := rfl
          have h10 : closeTag.length = 10 := rfl
          simp only [List.length_append, h9, h10] at this
          omega
        rw [e]
        exact ih f2 _ r _ (by omega) (by omega)

/-! ## The claims -/

set_option maxRecDepth 1000000

/-- C1 (defect of the code): in the absolute case the handler passes the new
tag to `ReplaceAllString` as a template, so a `$1` in the proxy prefix is
replaced by the captured base URL and the rewritten manifest does not hold
the tag with the prefix concatenated directly. -/
theorem absolute_case_expands_dollar :
    (reBaseURL.FindStringSubmatch "<BaseURL>http://cdn.example/seg/</BaseURL>".toList).get? 1
        = some "http://cdn.example/seg/".toList ∧
      (handelMain Unicode.caseless
        (envOf ⟨"http://origin.example/path/manifest.mpd".toList,
          some "<BaseURL>http://cdn.example/seg/</BaseURL>".toList, 200, []⟩)
        (requestOf "http://origin.example/path/manifest.mpd".toList
          "https://px/$1/".toList)).map (fun o => o.response.body)
        = some
          "<BaseURL>https://px/http://cdn.example/seg//http://cdn.example/seg/</BaseURL>".toList ∧
      ¬ ("<BaseURL>https://px/$1/http://cdn.example/seg/</BaseURL>".toList <:+:
        "<BaseURL>https://px/http://cdn.example/seg//http://cdn.example/seg/</BaseURL>".toList) := by
  refine ⟨by rfl, by rfl, by decide⟩

/-- C2, as stated, fails: the base URL `httpdocs/seg/` does not begin with an
HTTP(S) scheme, yet the handler takes it for absolute (it begins with
`http`) and joins no directory. -/
theorem relative_case_counterexample :
    (reBaseURL.FindStringSubmatch "<BaseURL>httpdocs/seg/</BaseURL>".toList).get? 1
        = some "httpdocs/seg/".toList ∧
      ¬ ("http://".toList <+: "httpdocs/seg/".toList) ∧
      ¬ ("https://".toList <+: "httpdocs/seg/".toList) ∧
      (handelMain Unicode.caseless
        (envOf ⟨"http://origin.example/path/manifest.mpd".toList,
          some "<BaseURL>httpdocs/seg/</BaseURL>".toList, 200, []⟩)
        (requestOf "http://origin.example/path/manifest.mpd".toList
          "https://px/".toList)).map (fun o => o.response.body)
        = some "<BaseURL>https://px/httpdocs/seg/</BaseURL>".toList ∧
      ¬ ("<BaseURL>https://px/http://origin.example/path/httpdocs/seg/</BaseURL>".toList <:+:
        "<BaseURL>https://px/httpdocs/seg/</BaseURL>".toList) := by
  refine ⟨by rfl, by decide, by decide, by rfl, by decide⟩

/-- C2, amended: when the first `<BaseURL>` element captures a base URL `b`
that does not begin with `http`, and neither the proxy prefix `p`, the
directory `d` of the final URL (the final URL up to and including its last
`/`) nor `b` holds a `$`, the request (the upstream status being one `WriteHeader`
accepts) is answered with a manifest that holds `<BaseURL>` ++ p ++ d ++ b ++ `</BaseURL>`. -/
theorem relative_case_rewrite (U : Unicode) (env : Env) (req : Request) (resp : Upstream)
    (mpd b d name : Str) (h : Relayed env req resp mpd)
    (hcode : validStatus resp.statusCode = true)
    (hb : (reBaseURL.FindStringSubmatch mpd).get? 1 = some b)
    (hrel : HasPrefix b "http".toList = false)
    (hu : resp.finalURL = d ++ name) (hname : '/' ∉ name)
    (hd : d = [] ∨ ∃ q, d = q ++ ['/'])
    (hdollar : '$' ∉ valuesGet req.query "proxyurl".toList ++ d ++ b) :
    ∃ out, handelMain U env req = some out ∧
      openTag ++ (valuesGet req.query "proxyurl".toList ++ d ++ b) ++ closeTag
        <:+: out.response.body := by
  obtain ⟨g, r, hs⟩ := captured_findSpan mpd b hb
  obtain ⟨base, nm, hbase, _, hout⟩ := handelMain_ok U env req resp mpd g b r h hs hcode
  obtain ⟨d1, n1, e1, hn1, hd1, hb1⟩ :=
    baseUrl_rel (valuesGet req.query "proxyurl".toList) resp.finalURL b hrel
  have hdd : d = d1 := dir_unique d name d1 n1 (by rw [← hu, ← e1]) hname hn1 hd hd1
  subst hdd
  rw [hb1] at hbase
  simp only [Option.some.injEq] at hbase
  subst hbase
  refine ⟨_, hout, ?_⟩
  have fm := findSpan_firstMatch hs
  exact rewrite_holds_tag U mpd _ ⟨g, b, r, fm.split, fm.oneLine⟩ hdollar

/-- C2, amended, at the example of the spec: `<BaseURL>seg/</BaseURL>`
fetched from `http://origin.example/path/manifest.mpd` with the prefix
`https://px/`. -/
theorem relative_case_rewrite_witness :
    ∃ out, handelMain Unicode.caseless
        (envOf ⟨"http://origin.example/path/manifest.mpd".toList,
          some "<BaseURL>seg/</BaseURL>".toList, 200, []⟩)
        (requestOf "http://origin.example/path/manifest.mpd".toList "https://px/".toList)
        = some out ∧
      "<BaseURL>https://px/http://origin.example/path/seg/</BaseURL>".toList
        <:+: out.response.body :=
  relative_case_rewrite Unicode.caseless
    (envOf ⟨"http://origin.example/path/manifest.mpd".toList,
      some "<BaseURL>seg/</BaseURL>".toList, 200, []⟩)
    (requestOf "http://origin.example/path/manifest.mpd".toList "https://px/".toList)
    ⟨"http://origin.example/path/manifest.mpd".toList,
      some "<BaseURL>seg/</BaseURL>".toList, 200, []⟩
    "<BaseURL>seg/</BaseURL>".toList "seg/".toList "http://origin.example/path/".toList
    "manifest.mpd".toList
    ⟨by decide, by decide, by decide, rfl, rfl⟩ (by decide) (by rfl) (by rfl) (by rfl) (by decide)
    (Or.inr ⟨"http://origin.example/path".toList, by rfl⟩) (by decide)

/-- C3, as stated, fails: of two `<BaseURL>` elements with different texts
the second is rewritten as well, so the result is not the text with only
the instances of the first matched span replaced. -/
theorem substitution_scope_counterexample :
    (reBaseURL.FindStringSubmatch
        "<BaseURL>a/</BaseURL><BaseURL>b/</BaseURL>".toList).get? 0
        = some "<BaseURL>a/</BaseURL>".toList ∧
      (handelMain Unicode.caseless
        (envOf ⟨"http://o/m.mpd".toList,
          some "<BaseURL>a/</BaseURL><BaseURL>b/</BaseURL>".toList, 200, []⟩)
        (requestOf "http://o/m.mpd".toList "https://px/".toList)).map
          (fun o => o.response.body)
        = some ("<BaseURL>https://px/http://o/a/</BaseURL>".toList
            ++ "<BaseURL>https://px/http://o/a/</BaseURL>".toList) ∧
      replaceLiteralAll "<BaseURL>a/</BaseURL>".toList
          "<BaseURL>https://px/http://o/a/</BaseURL>".toList
          "<BaseURL>a/</BaseURL><BaseURL>b/</BaseURL>".toList
        = "<BaseURL>https://px/http://o/a/</BaseURL>".toList ++ "<BaseURL>b/</BaseURL>".toList ∧
      "<BaseURL>https://px/http://o/a/</BaseURL>".toList
          ++ "<BaseURL>https://px/http://o/a/</BaseURL>".toList
        ≠ "<BaseURL>https://px/http://o/a/</BaseURL>".toList ++ "<BaseURL>b/</BaseURL>".toList ∧
      ¬ ("<BaseURL>b/</BaseURL>".toList <:+:
        "<BaseURL>https://px/http://o/a/</BaseURL>".toList
          ++ "<BaseURL>https://px/http://o/a/</BaseURL>".toList) := by
  refine ⟨by rfl, by rfl, by rfl, by decide, by decide⟩

/-- C3, amended: when the first `<BaseURL>` element captures `b` and the new
base URL built from it holds no `$`, the request is answered with the
manifest in which every match of the pattern `<BaseURL>(.*?)</BaseURL>`,
taken from left to right without overlap, is replaced by the new tag, and
the text between the matches is unchanged. -/
theorem substitution_scope (U : Unicode) (env : Env) (req : Request) (resp : Upstream)
    (mpd b base : Str) (h : Relayed env req resp mpd)
    (hcode : validStatus resp.statusCode = true)
    (hb : (reBaseURL.FindStringSubmatch mpd).get? 1 = some b)
    (hbase : baseUrl (valuesGet req.query "proxyurl".toList) resp.finalURL b = some base)
    (hdollar : '$' ∉ base) :
    ∃ out, handelMain U env req = some out ∧
      RewrittenAll (newTag base) mpd out.response.body := by
  obtain ⟨g, r, hs⟩ := captured_findSpan mpd b hb
  obtain ⟨base1, nm, hbase1, _, hout⟩ := handelMain_ok U env req resp mpd g b r h hs hcode
  rw [hbase] at hbase1
  simp only [Option.some.injEq] at hbase1
  subst hbase1
  refine ⟨_, hout, ?_⟩
  have hd2 : '$' ∉ newTag base := by
    simp only [newTag, List.mem_append, not_or]
    exact ⟨⟨by decide, hdollar⟩, by decide⟩
  exact replaceAllString_noDollar U mpd (newTag base) hd2

/-- C3, amended, at a manifest with two different `<BaseURL>` elements. -/
theorem substitution_scope_witness :
    ∃ out, handelMain Unicode.caseless
        (envOf ⟨"http://o/m.mpd".toList,
          some "<BaseURL>a/</BaseURL><BaseURL>b/</BaseURL>".toList, 200, []⟩)
        (requestOf "http://o/m.mpd".toList "https://px/".toList) = some out ∧
      RewrittenAll (newTag "https://px/http://o/a/".toList)
        "<BaseURL>a/</BaseURL><BaseURL>b/</BaseURL>".toList out.response.body :=
  substitution_scope Unicode.caseless
    (envOf ⟨"http://o/m.mpd".toList,
      some "<BaseURL>a/</BaseURL><BaseURL>b/</BaseURL>".toList, 200, []⟩)
    (requestOf "http://o/m.mpd".toList "https://px/".toList)
    ⟨"http://o/m.mpd".toList,
      some "<BaseURL>a/</BaseURL><BaseURL>b/</BaseURL>".toList, 200, []⟩
    "<BaseURL>a/</BaseURL><BaseURL>b/</BaseURL>".toList "a/".toList
    "https://px/http://o/a/".toList
    ⟨by decide, by decide, by decide, rfl, rfl⟩ (by decide) (by rfl) (by rfl) (by decide)

/-- C4, as stated, fails: a manifest whose `<BaseURL>` element spans several
lines holds an opening tag followed later by a closing tag, yet the handler
answers 500 with the message that no base URL was found. -/
theorem missing_baseURL_counterexample :
    (∃ pre mid post, "<BaseURL>\nseg/\n</BaseURL>".toList
        = pre ++ openTag ++ mid ++ closeTag ++ post) ∧
      (handelMain Unicode.caseless
        (envOf ⟨"http://o/m.mpd".toList, some "<BaseURL>\nseg/\n</BaseURL>".toList, 200, []⟩)
        (requestOf "http://o/m.mpd".toList "https://px/".toList)).map (fun o => o.response)
        = some (httpError "MPD 中未找到 BaseURL".toList 500) := by
  refine ⟨⟨[], "\nseg/\n".toList, [], by rfl⟩, by rfl⟩

/-- C4, amended: a relayed request whose manifest was read is answered with
status 500 and the message that no base URL was found (the manifest is not
forwarded) if and only if the manifest holds no `<BaseURL>` tag followed on
the same line (no line feed in between) by a `</BaseURL>` tag. -/
theorem missing_baseURL (U : Unicode) (env : Env) (req : Request) (resp : Upstream)
    (mpd : Str) (h : Relayed env req resp mpd) :
    (∃ out, handelMain U env req = some out ∧
        out.response = httpError "MPD 中未找到 BaseURL".toList 500) ↔ ¬ HasSpan mpd := by
  constructor
  · rintro ⟨out, ho, hr⟩ hs
    obtain ⟨g, c, r, hf⟩ := hasSpan_findSpan mpd hs
    obtain ⟨base, nm, _, _, hrel⟩ := relay_span U (valuesGet req.query "proxyurl".toList)
      resp mpd g c r h.bodyRead hf
    rw [handelMain_relayed U env req resp mpd h, hrel] at ho
    split at ho
    · simp only [Option.map_some', Option.some.injEq] at ho
      subst ho
      have h1 := congrArg (fun r => mapGet r.header "Connection".toList) hr
      simp only [successHeader_get_connection] at h1
      exact absurd h1 (by decide)
    · exact absurd ho (by simp)
  · intro hs
    have hf : findSpan mpd = none := by
      cases hf : findSpan mpd with
      | none => rfl
      | some q =>
        have := (findSpan_isSome_iff mpd).mp (by rw [hf]; rfl)
        exact absurd this hs
    refine ⟨⟨httpError "MPD 中未找到 BaseURL".toList 500,
      [valuesGet req.query "mpdurl".toList]⟩, ?_, rfl⟩
    rw [handelMain_relayed U env req resp mpd h,
      relay_noSpan U _ resp mpd h.bodyRead hf]
    rfl

/-- C4, amended, at a manifest without a `<BaseURL>` element. -/
theorem missing_baseURL_witness :
    ∃ out, handelMain Unicode.caseless
        (envOf ⟨"http://o/m.mpd".toList, some "<MPD></MPD>".toList, 200, []⟩)
        (requestOf "http://o/m.mpd".toList "https://px/".toList) = some out ∧
      out.response = httpError "MPD 中未找到 BaseURL".toList 500 :=
  (missing_baseURL Unicode.caseless
    (envOf ⟨"http://o/m.mpd".toList, some "<MPD></MPD>".toList, 200, []⟩)
    (requestOf "http://o/m.mpd".toList "https://px/".toList)
    ⟨"http://o/m.mpd".toList, some "<MPD></MPD>".toList, 200, []⟩
    "<MPD></MPD>".toList
    ⟨by decide, by decide, by decide, rfl, rfl⟩).mpr
    (findSpan_none (by rfl))

/-- C5, as stated, fails: a request without a query string has neither
parameter, and is answered with the landing page and status 200. -/
theorem missing_parameter_counterexample :
    valuesGet ([] : Header) "mpdurl".toList = [] ∧
      valuesGet ([] : Header) "proxyurl".toList = [] ∧
      (handelMain Unicode.caseless
        ⟨some "<html></html>".toList, fun _ => DoResult.failed⟩ ⟨[], []⟩).map
          (fun o => o.response.status) = some 200 := by
  refine ⟨by rfl, by rfl, by rfl⟩

/-- C5, amended: a request with a query string in which the parameter
`mpdurl` or the parameter `proxyurl` is absent or empty is answered with
status 400, and no outbound fetch is performed. -/
theorem missing_parameter (U : Unicode) (env : Env) (req : Request)
    (hq : req.rawQuery ≠ [])
    (hm : valuesGet req.query "mpdurl".toList = [] ∨
      valuesGet req.query "proxyurl".toList = []) :
    ∃ out, handelMain U env req = some out ∧ out.response.status = 400 ∧
      out.fetched = [] := by
  refine ⟨⟨httpError "缺少 mpdurl 或 proxyurl 参数".toList 400, []⟩, ?_, rfl, rfl⟩
  simp only [handelMain, hq, if_false, hm, if_true]

/-- C5, amended, at a request that has `mpdurl` only. -/
theorem missing_parameter_witness :
    ∃ out, handelMain Unicode.caseless ⟨none, fun _ => DoResult.failed⟩
        ⟨"mpdurl=http://o/m.mpd".toList, [("mpdurl".toList, ["http://o/m.mpd".toList])]⟩
        = some out ∧ out.response.status = 400 ∧ out.fetched = [] :=
  missing_parameter Unicode.caseless ⟨none, fun _ => DoResult.failed⟩
    ⟨"mpdurl=http://o/m.mpd".toList, [("mpdurl".toList, ["http://o/m.mpd".toList])]⟩
    (by decide) (Or.inr (by rfl))

/-- C6, as stated, fails: an upstream header with two values, whose name is
none of the five, arrives with one value, the two joined by a comma. -/
theorem header_propagation_counterexample :
    isOneOfFive "Vary".toList = false ∧
      (handelMain Unicode.caseless
        (envOf ⟨"http://o/m.mpd".toList, some "<BaseURL>a/</BaseURL>".toList, 200,
          [("Vary".toList, ["Accept".toList, "Origin".toList])]⟩)
        (requestOf "http://o/m.mpd".toList "https://px/".toList)).map
          (fun o => mapGet o.response.header "Vary".toList)
        = some (some ["Accept,Origin".toList]) ∧
      some ["Accept,Origin".toList] ≠ some ["Accept".toList, "Origin".toList] := by
  refine ⟨by rfl, by rfl, by decide⟩

/-- C6, amended: on the success path, for upstream headers whose names stay
pairwise different when canonicalised, (i) every upstream header whose name
is ASCII and is not, ignoring the case of letters, one of `Connection`,
`Content-Disposition`, `Content-Length`, `Proxy-Connection`,
`Transfer-Encoding` appears in the response under its canonical name with
one value, its upstream values joined by commas, and (ii)
`Proxy-Connection` and `Transfer-Encoding` are absent while `Connection`,
`Content-Length` and `Content-Disposition` carry only the values the
handler computes. -/
theorem header_propagation (U : Unicode) (env : Env) (req : Request) (resp : Upstream)
    (mpd : Str) (h : Relayed env req resp mpd) (hs : HasSpan mpd)
    (hcode : validStatus resp.statusCode = true)
    (hk : resp.header.Pairwise fun a b =>
      CanonicalMIMEHeaderKey a.1 ≠ CanonicalMIMEHeaderKey b.1) :
    ∃ out name, handelMain U env req = some out ∧
      fileName U resp.header resp.finalURL = some name ∧
      (∀ key values, (key, values) ∈ resp.header → isASCII key = true →
        isOneOfFive key = false →
        mapGet out.response.header (CanonicalMIMEHeaderKey key)
          = some [Join values ",".toList]) ∧
      mapGet out.response.header "Proxy-Connection".toList = none ∧
      mapGet out.response.header "Transfer-Encoding".toList = none ∧
      mapGet out.response.header "Connection".toList = some ["close".toList] ∧
      mapGet out.response.header "Content-Length".toList
        = some [(Nat.repr (byteLen out.response.body)).toList] ∧
      mapGet out.response.header "Content-Disposition".toList
        = some ["attachment; filename*=UTF-8''".toList ++ name] := by
  obtain ⟨g, c, r, hf⟩ := hasSpan_findSpan mpd hs
  obtain ⟨base, name, _, hname, hout⟩ := handelMain_ok U env req resp mpd g c r h hf hcode
  refine ⟨_, name, hout, hname, ?_, ?_, ?_, successHeader_get_connection _ _ _ _,
    successHeader_get_length _ _ _ _, successHeader_get_disposition _ _ _ _⟩
  · intro key values hm hascii hnot
    have hns : isStripped U key = false := by rw [isStripped_ascii U key hascii, hnot]
    have hne : ∀ k0 ∈ strippedNames, CanonicalMIMEHeaderKey key ≠ k0 := by
      intro k0 hk0 e
      rw [isStripped_of_canon U key k0 hk0 e] at hns
      exact absurd hns (by decide)
    show mapGet (successHeader U resp.header name _) (CanonicalMIMEHeaderKey key) = _
    rw [successHeader_get_other U resp.header name _ _ (hne _ (by decide))
      (hne _ (by decide)) (hne _ (by decide))]
    exact copyHeaders_get_mem U [] resp.header key values hk hm hns
  · show mapGet (successHeader U resp.header name _) _ = none
    rw [successHeader_get_other U resp.header name _ _ (by decide) (by decide) (by decide)]
    exact copyHeaders_stripped_absent U resp.header _ (by decide)
  · show mapGet (successHeader U resp.header name _) _ = none
    rw [successHeader_get_other U resp.header name _ _ (by decide) (by decide) (by decide)]
    exact copyHeaders_stripped_absent U resp.header _ (by decide)

/-- C6, amended, at an upstream response with a content type, a content
length, a `Proxy-Connection` header and a header of two values. -/
theorem header_propagation_witness :
    ∃ out name, handelMain Unicode.caseless
        (envOf ⟨"http://o/m.mpd".toList, some "<BaseURL>a/</BaseURL>".toList, 200,
          [("Content-Type".toList, ["application/dash+xml".toList]),
           ("Content-Length".toList, ["21".toList]),
           ("Proxy-Connection".toList, ["keep-alive".toList]),
           ("Vary".toList, ["Accept".toList, "Origin".toList])]⟩)
        (requestOf "http://o/m.mpd".toList "https://px/".toList) = some out ∧
      fileName Unicode.caseless
        [("Content-Type".toList, ["application/dash+xml".toList]),
         ("Content-Length".toList, ["21".toList]),
         ("Proxy-Connection".toList, ["keep-alive".toList]),
         ("Vary".toList, ["Accept".toList, "Origin".toList])] "http://o/m.mpd".toList
        = some name ∧
      (∀ key values, (key, values) ∈
          [("Content-Type".toList, ["application/dash+xml".toList]),
           ("Content-Length".toList, ["21".toList]),
           ("Proxy-Connection".toList, ["keep-alive".toList]),
           ("Vary".toList, ["Accept".toList, "Origin".toList])] →
        isASCII key = true → isOneOfFive key = false →
        mapGet out.response.header (CanonicalMIMEHeaderKey key)
          = some [Join values ",".toList]) ∧
      mapGet out.response.header "Proxy-Connection".toList = none ∧
      mapGet out.response.header "Transfer-Encoding".toList = none ∧
      mapGet out.response.header "Connection".toList = some ["close".toList] ∧
      mapGet out.response.header "Content-Length".toList
        = some [(Nat.repr (byteLen out.response.body)).toList] ∧
      mapGet out.response.header "Content-Disposition".toList
        = some ["attachment; filename*=UTF-8''".toList ++ name] :=
  header_propagation Unicode.caseless
    (envOf ⟨"http://o/m.mpd".toList, some "<BaseURL>a/</BaseURL>".toList, 200,
      [("Content-Type".toList, ["application/dash+xml".toList]),
       ("Content-Length".toList, ["21".toList]),
       ("Proxy-Connection".toList, ["keep-alive".toList]),
       ("Vary".toList, ["Accept".toList, "Origin".toList])]⟩)
    (requestOf "http://o/m.mpd".toList "https://px/".toList)
    ⟨"http://o/m.mpd".toList, some "<BaseURL>a/</BaseURL>".toList, 200,
      [("Content-Type".toList, ["application/dash+xml".toList]),
       ("Content-Length".toList, ["21".toList]),
       ("Proxy-Connection".toList, ["keep-alive".toList]),
       ("Vary".toList, ["Accept".toList, "Origin".toList])]⟩
    "<BaseURL>a/</BaseURL>".toList
    ⟨by decide, by decide, by decide, rfl, rfl⟩
    ⟨[], "a/".toList, [], by rfl, by decide⟩
    (by decide) (by decide)

/-- C7, as stated, fails: the upstream value holds `filename="Movie.MPD"`,
and the file name of the response is `movie.mpd`, in lower case. -/
theorem disposition_fileName_counterexample :
    (handelMain Unicode.caseless
        (envOf ⟨"http://o/m.mpd".toList, some "<BaseURL>a/</BaseURL>".toList, 200,
          [("Content-Disposition".toList,
            ["attachment; filename=\"Movie.MPD\"".toList])]⟩)
        (requestOf "http://o/m.mpd".toList "https://px/".toList)).map
          (fun o => mapGet o.response.header "Content-Disposition".toList)
        = some (some ["attachment; filename*=UTF-8''movie.mpd".toList]) ∧
      "attachment; filename*=UTF-8''movie.mpd".toList
        ≠ "attachment; filename*=UTF-8''Movie.MPD".toList := by
  refine ⟨by rfl, by decide⟩

/-- C7, amended: on the success path, when the lower-cased upstream
`Content-Disposition` value is `pre ++ filename="X" ++ post` with `X` not
empty and without double quote, no line feed in `pre` and `post`, and no
further `filename="` from `X` on, the response carries exactly
`Content-Disposition: attachment; filename*=UTF-8''X`: the file name is the
one of the lower-cased value. -/
theorem disposition_fileName (U : Unicode) (env : Env) (req : Request) (resp : Upstream)
    (mpd pre X post : Str) (h : Relayed env req resp mpd) (hs : HasSpan mpd)
    (hcode : validStatus resp.statusCode = true)
    (hv : ToLower U (Header.Get resp.header "Content-Disposition".toList)
      = pre ++ fnTag ++ X ++ '"' :: post)
    (hX : X ≠ []) (hq : '"' ∉ X) (hp : '\n' ∉ pre) (hn : '\n' ∉ post)
    (hlast : ¬ fnTag <:+: X ++ '"' :: post) :
    ∃ out, handelMain U env req = some out ∧
      mapGet out.response.header "Content-Disposition".toList
        = some ["attachment; filename*=UTF-8''".toList ++ X] := by
  obtain ⟨g, c, r, hf⟩ := hasSpan_findSpan mpd hs
  obtain ⟨base, name, _, hname, hout⟩ := handelMain_ok U env req resp mpd g c r h hf hcode
  have hd := dispositionFileName_lowered U resp.header pre X post hv hX hq hp hn hlast
  simp only [fileName, hd, hX, if_false, Option.some.injEq] at hname
  subst hname
  exact ⟨_, hout, successHeader_get_disposition _ _ _ _⟩

/-- C7, amended, at the upstream value `attachment; filename="Movie.MPD"`. -/
theorem disposition_fileName_witness :
    ∃ out, handelMain Unicode.caseless
        (envOf ⟨"http://o/m.mpd".toList, some "<BaseURL>a/</BaseURL>".toList, 200,
          [("Content-Disposition".toList,
            ["attachment; filename=\"Movie.MPD\"".toList])]⟩)
        (requestOf "http://o/m.mpd".toList "https://px/".toList) = some out ∧
      mapGet out.response.header "Content-Disposition".toList
        = some ["attachment; filename*=UTF-8''".toList ++ "movie.mpd".toList] :=
  disposition_fileName Unicode.caseless
    (envOf ⟨"http://o/m.mpd".toList, some "<BaseURL>a/</BaseURL>".toList, 200,
      [("Content-Disposition".toList, ["attachment; filename=\"Movie.MPD\"".toList])]⟩)
    (requestOf "http://o/m.mpd".toList "https://px/".toList)
    ⟨"http://o/m.mpd".toList, some "<BaseURL>a/</BaseURL>".toList, 200,
      [("Content-Disposition".toList, ["attachment; filename=\"Movie.MPD\"".toList])]⟩
    "<BaseURL>a/</BaseURL>".toList "attachment; ".toList "movie.mpd".toList []
    ⟨by decide, by decide, by decide, rfl, rfl⟩
    ⟨[], "a/".toList, [], by rfl, by decide⟩ (by decide)
    (by rfl) (by decide) (by decide) (by decide) (by decide) (by decide)

/-- C8: when the upstream `Content-Disposition` yields no file name, the
file name computed from the final URL `u` exists, holds neither `/` nor
`?`, and is the text after the last `/` of `u` when `u` has no `?`, and
otherwise the text after the last `/` of the part of `u` before its first
`?`. -/
theorem url_fileName (U : Unicode) (hdr : Header) (u : Str)
    (h : dispositionFileName U hdr = []) :
    ∃ name, fileName U hdr u = some name ∧ '/' ∉ name ∧ '?' ∉ name ∧
      (('?' ∉ u ∧ ∃ pre, u = pre ++ name ∧ (pre = [] ∨ ∃ q, pre = q ++ ['/'])) ∨
       (∃ pre rest, u = pre ++ name ++ '?' :: rest ∧ '?' ∉ pre ∧
          (pre = [] ∨ ∃ q, pre = q ++ ['/']))) := by
  obtain ⟨name, hn, h1, h2, h3⟩ := urlFileName_spec u
  exact ⟨name, by simp only [fileName, h, if_true, hn], h1, h2, h3⟩

/-- C8 at the final URL `http://o/p/manifest.mpd?x=1/2` without an upstream
`Content-Disposition`. -/
theorem url_fileName_witness :
    ∃ name, fileName Unicode.caseless [] "http://o/p/manifest.mpd?x=1/2".toList = some name ∧
      '/' ∉ name ∧ '?' ∉ name ∧
      (('?' ∉ "http://o/p/manifest.mpd?x=1/2".toList ∧
          ∃ pre, "http://o/p/manifest.mpd?x=1/2".toList = pre ++ name ∧
            (pre = [] ∨ ∃ q, pre = q ++ ['/'])) ∨
       (∃ pre rest, "http://o/p/manifest.mpd?x=1/2".toList = pre ++ name ++ '?' :: rest ∧
          '?' ∉ pre ∧ (pre = [] ∨ ∃ q, pre = q ++ ['/']))) :=
  url_fileName Unicode.caseless [] "http://o/p/manifest.mpd?x=1/2".toList (by rfl)

/-- C9: the guard against an empty rewritten manifest is never taken.  When
the pattern matches the manifest, the manifest `ReplaceAllString` returns
holds the text `<BaseURL>` and is not empty, whatever the new base URL is
(a `$` in it included); and no call of the handler is answered with the
response of that guard. -/
theorem empty_guard_unreachable (U : Unicode) :
    (∀ mpd base : Str, 2 ≤ (reBaseURL.FindStringSubmatch mpd).length →
      openTag <:+: reBaseURL.ReplaceAllString U mpd (newTag base) ∧
      reBaseURL.ReplaceAllString U mpd (newTag base) ≠ []) ∧
    (∀ env req out, handelMain U env req = some out →
      out.response ≠ httpError "生成的 MPD 内容为空".toList 500) := by
  constructor
  · intro mpd base hlen
    rw [findStringSubmatch_reBaseURL] at hlen
    cases hf : findSpan mpd with
    | none => rw [hf] at hlen; simp at hlen
    | some q =>
      obtain ⟨g, c, r⟩ := q
      refine ⟨?_, replaceAllString_ne_nil U mpd base g c r hf⟩
      have h := replaceAllString_first U mpd (base ++ closeTag) g c r hf
      have e : openTag ++ (base ++ closeTag) = newTag base := by
        simp [newTag, openTag, closeTag]
      rw [e] at h
      exact (List.suffix_append g openTag).isInfix.trans h.isInfix
  · intro env req out ho
    simp only [handelMain] at ho
    split at ho
    · split at ho
      · simp only [Option.some.injEq] at ho
        subst ho
        decide
      · simp only [Option.some.injEq] at ho
        subst ho
        intro hc
        have := congrArg Response.status hc
        simp [httpError] at this
    · split at ho
      · simp only [Option.some.injEq] at ho
        subst ho
        decide
      · split at ho
        · exact absurd ho (by simp)
        · simp only [Option.some.injEq] at ho
          subst ho
          exact (by decide : httpError "访问目标地址失败".toList 500
            ≠ httpError "生成的 MPD 内容为空".toList 500)
        · rename_i resp _
          cases hb : resp.body with
          | none =>
            simp only [relay, hb, Option.map_some', Option.some.injEq] at ho
            subst ho
            exact (by decide : httpError "读取目标响应内容失败".toList 500
              ≠ httpError "生成的 MPD 内容为空".toList 500)
          | some mpd =>
            cases hf : findSpan mpd with
            | none =>
              rw [relay_noSpan U _ resp mpd hb hf] at ho
              simp only [Option.map_some', Option.some.injEq] at ho
              subst ho
              exact (by decide : httpError "MPD 中未找到 BaseURL".toList 500
                ≠ httpError "生成的 MPD 内容为空".toList 500)
            | some q =>
              obtain ⟨g, c, r⟩ := q
              obtain ⟨base, name, _, _, hr⟩ := relay_span U
                (valuesGet req.query "proxyurl".toList) resp mpd g c r hb hf
              rw [hr] at ho
              split at ho
              · simp only [Option.map_some', Option.some.injEq] at ho
                subst ho
                intro hc
                have h1 := congrArg (fun r => mapGet r.header "Connection".toList) hc
                simp only [successHeader_get_connection] at h1
                exact absurd h1 (by decide)
              · exact absurd ho (by simp)

/-- C9 at a manifest and a new base URL that holds `$1` and `$$`. -/
theorem empty_guard_unreachable_witness :
    openTag <:+: reBaseURL.ReplaceAllString Unicode.caseless
        "<MPD><BaseURL>seg/</BaseURL></MPD>".toList (newTag "https://px/$1/$$/seg/".toList) ∧
      reBaseURL.ReplaceAllString Unicode.caseless
        "<MPD><BaseURL>seg/</BaseURL></MPD>".toList (newTag "https://px/$1/$$/seg/".toList)
        ≠ [] :=
  (empty_guard_unreachable Unicode.caseless).1 "<MPD><BaseURL>seg/</BaseURL></MPD>".toList
    "https://px/$1/$$/seg/".toList (by decide)

/-- C10: for every final URL `u` the bounds of the three slices the handler
takes of it are in range, `0 ≤ low ≤ high ≤ len(u)`: for `u[:i+1]` and
`u[i+1:]` with `i` the last index of `/`, and, when `u` has a `?` at first
index `q`, for `u[:q]` and `u[j+1:q]` with `j` the last index of `/` in
`u[:q]`; so the directory and the file name are computed without panic. -/
theorem slices_in_bounds (u : Str) :
    (0 ≤ LastIndex u "/".toList + 1 ∧ LastIndex u "/".toList + 1 ≤ (u.length : Int)) ∧
    (Index u "?".toList ≠ -1 →
      0 ≤ Index u "?".toList ∧ Index u "?".toList ≤ (u.length : Int) ∧
      ∃ head, goSlice u 0 (Index u "?".toList) = some head ∧
        0 ≤ LastIndex head "/".toList + 1 ∧
        LastIndex head "/".toList + 1 ≤ Index u "?".toList) ∧
    (∀ p b, (baseUrl p u b).isSome = true) ∧
    (urlFileName u).isSome = true := by
  have hne : "/".toList ≠ [] := by decide
  refine ⟨?_, ?_, ?_, ?_⟩
  · have := lastIndex_bounds u "/".toList hne
    omega
  · intro hq
    rcases indexFrom_bounds "?".toList (by decide) 0 u with h0 | h0
    · exact absurd h0 hq
    · have hi : Index u "?".toList = indexFrom "?".toList 0 u := rfl
      rw [hi]
      simp only [Nat.cast_zero, Int.zero_add] at h0
      obtain ⟨n, hn⟩ := Int.eq_ofNat_of_zero_le h0.1
      have hle : n ≤ u.length := by omega
      refine ⟨h0.1, by omega, u.take n, by rw [hn]; exact goSlice_to u n hle, ?_⟩
      have hb := lastIndex_bounds (u.take n) "/".toList hne
      have hl : (u.take n).length ≤ n := by simp
      omega
  · intro p b
    obtain ⟨base, hb⟩ := baseUrl_total p u b
    rw [hb]
    rfl
  · obtain ⟨name, hn, _⟩ := urlFileName_spec u
    rw [hn]
    rfl

/-- C10 at the empty final URL and at a final URL whose first `?` precedes
every `/`: the directory and the file name are computed. -/
theorem slices_in_bounds_witness :
    (urlFileName ([] : Str)).isSome = true ∧ (urlFileName "a?b/c".toList).isSome = true ∧
      (baseUrl "https://px/".toList "a?b/c".toList "seg/".toList).isSome = true :=
  ⟨(slices_in_bounds []).2.2.2, (slices_in_bounds "a?b/c".toList).2.2.2,
    (slices_in_bounds "a?b/c".toList).2.2.1 _ _⟩

/-! ## Further properties of the handler -/

/-- The absolute case without `$`: when the first `<BaseURL>` element
captures a base URL `b` that begins with `http`, and neither the proxy
prefix `p` nor `b` holds a `$`, the request is answered with a manifest
that holds `<BaseURL>` ++ p ++ b ++ `</BaseURL>`. -/
theorem absolute_case_rewrite (U : Unicode) (env : Env) (req : Request) (resp : Upstream)
    (mpd b : Str) (h : Relayed env req resp mpd)
    (hcode : validStatus resp.statusCode = true)
    (hb : (reBaseURL.FindStringSubmatch mpd).get? 1 = some b)
    (habs : HasPrefix b "http".toList = true)
    (hdollar : '$' ∉ valuesGet req.query "proxyurl".toList ++ b) :
    ∃ out, handelMain U env req = some out ∧
      openTag ++ (valuesGet req.query "proxyurl".toList ++ b) ++ closeTag
        <:+: out.response.body := by
  obtain ⟨g, r, hs⟩ := captured_findSpan mpd b hb
  obtain ⟨base, nm, hbase, _, hout⟩ := handelMain_ok U env req resp mpd g b r h hs hcode
  rw [baseUrl_abs _ _ _ habs] at hbase
  simp only [Option.some.injEq] at hbase
  subst hbase
  refine ⟨_, hout, ?_⟩
  have fm := findSpan_firstMatch hs
  exact rewrite_holds_tag U mpd _ ⟨g, b, r, fm.split, fm.oneLine⟩ hdollar

/-- The absolute case at the example of the spec:
`<BaseURL>http://cdn.example/seg/</BaseURL>` with the prefix `https://px/`. -/
theorem absolute_case_rewrite_witness :
    ∃ out, handelMain Unicode.caseless
        (envOf ⟨"http://origin.example/path/manifest.mpd".toList,
          some "<BaseURL>http://cdn.example/seg/</BaseURL>".toList, 200, []⟩)
        (requestOf "http://origin.example/path/manifest.mpd".toList "https://px/".toList)
        = some out ∧
      "<BaseURL>https://px/http://cdn.example/seg/</BaseURL>".toList
        <:+: out.response.body :=
  absolute_case_rewrite Unicode.caseless
    (envOf ⟨"http://origin.example/path/manifest.mpd".toList,
      some "<BaseURL>http://cdn.example/seg/</BaseURL>".toList, 200, []⟩)
    (requestOf "http://origin.example/path/manifest.mpd".toList "https://px/".toList)
    ⟨"http://origin.example/path/manifest.mpd".toList,
      some "<BaseURL>http://cdn.example/seg/</BaseURL>".toList, 200, []⟩
    "<BaseURL>http://cdn.example/seg/</BaseURL>".toList "http://cdn.example/seg/".toList
    ⟨by decide, by decide, by decide, rfl, rfl⟩ (by decide) (by rfl) (by rfl) (by decide)

/-- The success path mirrors the upstream status and fetches once: a relayed
request whose manifest holds a `<BaseURL>` element on one line is answered
with the status code of the upstream response, and the one URL fetched is
the value of `mpdurl`. -/
theorem success_mirrors_status (U : Unicode) (env : Env) (req : Request) (resp : Upstream)
    (mpd : Str) (h : Relayed env req resp mpd) (hs : HasSpan mpd)
    (hcode : validStatus resp.statusCode = true) :
    ∃ out, handelMain U env req = some out ∧ out.response.status = resp.statusCode ∧
      out.fetched = [valuesGet req.query "mpdurl".toList] := by
  obtain ⟨g, c, r, hf⟩ := hasSpan_findSpan mpd hs
  obtain ⟨base, name, _, _, hout⟩ := handelMain_ok U env req resp mpd g c r h hf hcode
  exact ⟨_, hout, rfl, rfl⟩

/-- The mirrored status at an upstream response with status 206. -/
theorem success_mirrors_status_witness :
    ∃ out, handelMain Unicode.caseless
        (envOf ⟨"http://o/m.mpd".toList, some "<BaseURL>a/</BaseURL>".toList, 206, []⟩)
        (requestOf "http://o/m.mpd".toList "https://px/".toList) = some out ∧
      out.response.status = 206 ∧ out.fetched = ["http://o/m.mpd".toList] :=
  success_mirrors_status Unicode.caseless
    (envOf ⟨"http://o/m.mpd".toList, some "<BaseURL>a/</BaseURL>".toList, 206, []⟩)
    (requestOf "http://o/m.mpd".toList "https://px/".toList)
    ⟨"http://o/m.mpd".toList, some "<BaseURL>a/</BaseURL>".toList, 206, []⟩
    "<BaseURL>a/</BaseURL>".toList
    ⟨by decide, by decide, by decide, rfl, rfl⟩
    ⟨[], "a/".toList, [], by rfl, by decide⟩ (by decide)

/-- The landing page: a request without a query string is answered with
status 200 and the embedded document as the body, and nothing is fetched. -/
theorem landing_page (U : Unicode) (env : Env) (req : Request) (page : Str)
    (hq : req.rawQuery = []) (hi : env.index = some page) :
    handelMain U env req = some ⟨⟨200, [], page⟩, []⟩ := by
  simp only [handelMain, hq, if_true, hi]

/-- The landing page at a request without a query string. -/
theorem landing_page_witness :
    handelMain Unicode.caseless ⟨some "<html></html>".toList, fun _ => DoResult.failed⟩
      ⟨[], []⟩ = some ⟨⟨200, [], "<html></html>".toList⟩, []⟩ :=
  landing_page Unicode.caseless ⟨some "<html></html>".toList, fun _ => DoResult.failed⟩
    ⟨[], []⟩ "<html></html>".toList rfl rfl

/-- A failed fetch and a failed read of the body are both answered with
status 500, after the one fetch of the value of `mpdurl`. -/
theorem upstream_failure (U : Unicode) (env : Env) (req : Request)
    (hq : req.rawQuery ≠ [])
    (hm : valuesGet req.query "mpdurl".toList ≠ [])
    (hp : valuesGet req.query "proxyurl".toList ≠ [])
    (hf : env.fetch (valuesGet req.query "mpdurl".toList) = DoResult.failed ∨
      ∃ resp, env.fetch (valuesGet req.query "mpdurl".toList) = DoResult.ok resp ∧
        resp.body = none) :
    ∃ out, handelMain U env req = some out ∧ out.response.status = 500 ∧
      out.fetched = [valuesGet req.query "mpdurl".toList] := by
  rcases hf with hf | ⟨resp, hf, hb⟩
  · exact ⟨⟨httpError "访问目标地址失败".toList 500, [valuesGet req.query "mpdurl".toList]⟩,
      by simp only [handelMain, hq, hm, hp, hf, if_false, or_self], rfl, rfl⟩
  · exact ⟨⟨httpError "读取目标响应内容失败".toList 500, [valuesGet req.query "mpdurl".toList]⟩,
      by simp only [handelMain, hq, hm, hp, hf, if_false, or_self, relay, hb, Option.map_some'],
      rfl, rfl⟩

/-- A failed fetch, at a request with both parameters. -/
theorem upstream_failure_witness :
    ∃ out, handelMain Unicode.caseless ⟨none, fun _ => DoResult.failed⟩
        (requestOf "http://o/m.mpd".toList "https://px/".toList) = some out ∧
      out.response.status = 500 ∧ out.fetched = ["http://o/m.mpd".toList] :=
  upstream_failure Unicode.caseless ⟨none, fun _ => DoResult.failed⟩
    (requestOf "http://o/m.mpd".toList "https://px/".toList)
    (by decide) (by decide) (by decide) (Or.inl rfl)

end HandleMPD
